import Mathlib

/-!
Verification of the DexFileManager core (organizer.py, utils.py) against its
natural-language specification.

The Python code is shallowly embedded:

* A filesystem is a finite map from paths (segment lists, relative to the
  source directory) to file data, together with a list of existing
  directories.  The root directory is the empty path and is always present.
* SHA-256 digests are modeled by an injective digest, namely the file's
  content itself wrapped in `Option` ; `get_file_hash` returns `none` when
  hashing fails (unreadable / vanished file), mirroring the `None` return of
  the Python function.  Real hex digests are never empty strings, so the
  Python truthiness test `if source_hash and dest_hash` is modeled as
  `Option.isSome` of both.
* Per-file I/O failures are driven by an oracle: `vanished p` means the file
  at `p` disappeared after the directory listing (the scan-then-act race),
  `hashFails p` means reading `p` for hashing fails.
* `shutil.move` / `os.rename` / `os.remove` are modeled with POSIX semantics
  for regular files (a rename over an existing file silently replaces it;
  renaming onto a directory or into a non-directory parent fails).
  Directory renames are out of scope (no claim exercises them).
* Folder names produced by the classifier are modeled as single path
  segments (names containing a path separator are out of scope).
* An uncaught Python exception escaping `organize()` is modeled by
  `Except.error ()`; all exception handlers present in the source are
  modeled at the exact places they appear.
-/

namespace DexFM

/-- Paths are lists of segments, relative to the source directory; `[]` is the
source directory itself. -/
abbrev Path := List String

/-- Data stored for one regular file: its content (standing for the byte
string) and its modification time (`st_mtime`). -/
structure FileData where
  content : String
  mtime : Nat
deriving DecidableEq

/-- A snapshot of the organized directory tree: the regular files (path with
their data, in OS listing order) and the directories other than the root. -/
structure FS where
  files : List (Path × FileData)
  dirs : List Path
deriving DecidableEq

/-- First entry for key `p` in an association list of files. -/
def lookupIn : List (Path × FileData) → Path → Option FileData
  | [], _ => none
  | e :: l, p => if e.1 = p then some e.2 else lookupIn l p

/-- Content of the file at `p`, if a regular file exists there. -/
def FS.lookup (fs : FS) (p : Path) : Option FileData :=
  lookupIn fs.files p

/-- Python `Path.is_file()`. -/
def FS.isFile (fs : FS) (p : Path) : Bool :=
  (fs.lookup p).isSome

/-- Python `Path.is_dir()`; the root `[]` always exists. -/
def FS.isDir (fs : FS) (p : Path) : Bool :=
  p = [] || fs.dirs.contains p

/-- Python `Path.exists()`. -/
def FS.exists_ (fs : FS) (p : Path) : Bool :=
  fs.isFile p || fs.isDir p

/-- Removes the regular file at `p` (no effect if absent). -/
def FS.removeFile (fs : FS) (p : Path) : FS :=
  { fs with files := fs.files.filter (fun e => ¬ e.1 = p) }

/-- Places file data at `p`, replacing any regular file already there. -/
def FS.addFile (fs : FS) (p : Path) (d : FileData) : FS :=
  { fs with files := (fs.removeFile p).files ++ [(p, d)] }

/-- Removes the directory entry `p`. -/
def FS.removeDir (fs : FS) (p : Path) : FS :=
  { fs with dirs := fs.dirs.filter (fun d => ¬ d = p) }

/-- Direct-children files of the source directory, in listing order; these are
the entries `organize()` iterates over and for which `is_file()` holds. -/
def FS.rootFiles (fs : FS) : List (Path × FileData) :=
  fs.files.filter (fun e => e.1.length = 1)

/-- Python `any(self.source_dir.iterdir())`: the source directory has some
direct child (file or directory). -/
def FS.rootNonempty (fs : FS) : Bool :=
  fs.files.any (fun e => e.1.length = 1) || fs.dirs.any (fun d => d.length = 1)

/-- Last path segment, Python `Path.name` (`""` for the root). -/
def nameOf (p : Path) : String :=
  p.getLastD ""

/-- Parent path, Python `Path.parent`. -/
def parentOf (p : Path) : Path :=
  p.dropLast

/-- Well-formedness of a filesystem snapshot: file keys and directory entries
are unique, the root is implicit, no path is both a file and a directory, and
every proper nonempty prefix of an existing path is an existing directory. -/
def FS.Wf (fs : FS) : Prop :=
  (fs.files.map (fun e => e.1)).Nodup ∧
  fs.dirs.Nodup ∧
  (∀ e ∈ fs.files, e.1 ≠ []) ∧
  [] ∉ fs.dirs ∧
  (∀ e ∈ fs.files, e.1 ∉ fs.dirs) ∧
  (∀ e ∈ fs.files, ∀ q ∈ e.1.inits, q ≠ e.1 → q ≠ [] → q ∈ fs.dirs) ∧
  (∀ d ∈ fs.dirs, ∀ q ∈ d.inits, q ≠ d → q ≠ [] → q ∈ fs.dirs)

instance (fs : FS) : Decidable fs.Wf := by
  unfold FS.Wf; infer_instance

instance {α β : Type} [DecidableEq α] [DecidableEq β] :
    DecidableEq (Except α β) := fun a b =>
  match a, b with
  | .error x, .error y =>
    if h : x = y then .isTrue (by rw [h]) else .isFalse (by simp [h])
  | .error _, .ok _ => .isFalse (by simp)
  | .ok _, .error _ => .isFalse (by simp)
  | .ok x, .ok y =>
    if h : x = y then .isTrue (by rw [h]) else .isFalse (by simp [h])

/-!  Pathlib name decomposition, following the `PurePath.suffix` / `stem`
properties: the suffix is the part of the name from its last dot, unless that
dot is the first or last character of the name. -/

/-- Index of the last '.' in the character list, if any. -/
def lastDotIdx (l : List Char) : Option Nat :=
  (l.reverse.findIdx? (fun c => c = '.')).map (fun j => l.length - 1 - j)

/-- Python `PurePath.suffix` of a file name. -/
def pySuffix (nm : String) : String :=
  match lastDotIdx nm.data with
  | some i => if 0 < i ∧ i < nm.data.length - 1 then ⟨nm.data.drop i⟩ else ""
  | none => ""

/-- Python `PurePath.stem` of a file name. -/
def pyStem (nm : String) : String :=
  match lastDotIdx nm.data with
  | some i => if 0 < i ∧ i < nm.data.length - 1 then ⟨nm.data.take i⟩ else nm
  | none => nm

/-- Python `str.lstrip(".")`. -/
def lstripDots (s : String) : String :=
  ⟨s.data.dropWhile (fun c => c = '.')⟩

/-- Python `str.lower()`, modeled characterwise (ASCII case folding, which is
what the extensions at hand exercise). -/
def strLower (s : String) : String :=
  ⟨s.data.map Char.toLower⟩

/-- The lowercased, dot-stripped extension `_get_extension_folder` computes:
`file_path.suffix.lstrip(".").lower()`. -/
def lowerExt (nm : String) : String :=
  strLower (lstripDots (pySuffix nm))

/-- Embedding of `FileOrganizer._get_extension_folder` : the extension-strategy
classifier over the configured mappings (an association list, preserving the
insertion order of the Python dict). -/
def get_extension_folder (mappings : List (String × List String)) (nm : String) : String :=
  let ext := lowerExt nm
  if ext = "" then "Others"
  else
    match mappings.find? (fun m => ext ∈ m.2) with
    | some m => m.1
    | none => "Others"

/-- Per-file I/O failure oracle: `vanished p` models the file at `p`
disappearing between the directory listing and the action taken on it;
`hashFails p` models an unreadable file during hashing. -/
structure Oracle where
  vanished : Path → Bool
  hashFails : Path → Bool

/-- The oracle of a run in which no per-file I/O failure occurs. -/
def Oracle.benign : Oracle :=
  { vanished := fun _ => false, hashFails := fun _ => false }

/-- Configuration and run mode of a `FileOrganizer`, fixed at construction:
the YAML `mappings` (folder name, extension list) in insertion order, the
`ignore` list, the strategy string, the dry-run flag, the composition of
`datetime.fromtimestamp` and `strftime(date_format)` as one abstract
function on mtimes, the timestamp used for the history entry, and the
failure oracle. -/
structure Env where
  mappings : List (String × List String)
  ignore : List String
  strategy : String
  dryRun : Bool
  formatDate : Nat → String
  now : Nat
  oracle : Oracle

/-- Embedding of `get_file_hash` (utils.py): the SHA-256 digest of the file
at `p`, or `none` when the read raises (unreadable, vanished, or no regular
file there).  The digest is modeled by the content itself, which is injective
exactly as the spec assumes the digest to be. -/
def get_file_hash (o : Oracle) (fs : FS) (p : Path) : Option String :=
  if o.hashFails p || o.vanished p then none
  else (fs.lookup p).map (fun d => d.content)

/-- Embedding of `os.remove(source_path)` under the `try/except` of the
duplicate branch of `safe_move`: on failure the exception is logged and the
filesystem is unchanged. -/
def osRemove (o : Oracle) (fs : FS) (p : Path) : FS :=
  if o.vanished p || ¬ fs.isFile p then fs else fs.removeFile p

/-- Embedding of `shutil.move(src, dst)` for a regular file: `none` models a
raised exception (source vanished or not a regular file, destination parent
not a directory, or destination an existing directory).  A move onto an
existing regular file replaces it, as `os.rename` does on POSIX. -/
def osMove (o : Oracle) (fs : FS) (src dst : Path) : Option FS :=
  if o.vanished src then none
  else
    match fs.lookup src with
    | none => none
    | some d =>
      if fs.isDir (parentOf dst) && ¬ fs.isDir dst then
        some ((fs.removeFile src).addFile dst d)
      else none

/-- Candidate file name `f"{stem}_{counter}{suffix}"` built by the collision
rename loop of `safe_move`. -/
def candName (stem suffix : String) (k : Nat) : String :=
  stem ++ "_" ++ Nat.repr k ++ suffix

/-- Embedding of the `while dest_path.exists()` rename loop of `safe_move`:
starting at counter `k`, return the first candidate path that does not exist.
The Python loop is unbounded; here structural fuel is supplied, and
`renameLoop_finds_least` shows that `loopFuel` is always sufficient, so the
zero-fuel branch is unreachable. -/
def renameLoop (fs : FS) (destFolder : Path) (stem suffix : String) :
    Nat → Nat → Path
  | _, 0 => destFolder
  | k, fuel + 1 =>
    let c := destFolder ++ [candName stem suffix k]
    if fs.exists_ c then renameLoop fs destFolder stem suffix (k + 1) fuel else c

/-- Fuel that always suffices for `renameLoop`: one more than the number of
existing filesystem entries. -/
def loopFuel (fs : FS) : Nat :=
  fs.files.length + fs.dirs.length + 1

/-- Embedding of `safe_move` (utils.py).  Returns the `final_path` (or `none`
for the Python `None` / bare `return`) together with the filesystem after the
call.  Mirrors the source: create the destination folder if absent (dry-run
only reports), then on a name collision hash both files; if both digests are
available and equal, delete the source (dry-run: report only) and return
`None`; otherwise find the first free suffixed name; finally perform the move
(dry-run: report and return the computed path). -/
def safe_move (env : Env) (fs : FS) (source_path dest_folder : Path) :
    Option Path × FS :=
  let fs0 :=
    if ¬ fs.exists_ dest_folder ∧ ¬ env.dryRun then
      { fs with dirs := fs.dirs ++ [dest_folder] }
    else fs
  let nm := nameOf source_path
  let dest_path := dest_folder ++ [nm]
  if fs0.exists_ dest_path then
    let source_hash := get_file_hash env.oracle fs0 source_path
    let dest_hash := get_file_hash env.oracle fs0 dest_path
    if source_hash.isSome ∧ dest_hash.isSome ∧ source_hash = dest_hash then
      if env.dryRun then (none, fs0)
      else (none, osRemove env.oracle fs0 source_path)
    else
      let dest' := renameLoop fs0 dest_folder (pyStem nm) (pySuffix nm) 1 (loopFuel fs0)
      if env.dryRun then (some dest', fs0)
      else
        match osMove env.oracle fs0 source_path dest' with
        | some fs1 => (some dest', fs1)
        | none => (none, fs0)
  else
    if env.dryRun then (some dest_path, fs0)
    else
      match osMove env.oracle fs0 source_path dest_path with
      | some fs1 => (some dest_path, fs1)
      | none => (none, fs0)

/-- One recorded move: `{"src": ..., "dest": ...}`. -/
structure MoveRec where
  src : Path
  dest : Path
deriving DecidableEq

/-- One history entry: `{"timestamp": ..., "moves": ...}`. -/
structure Batch where
  timestamp : Nat
  moves : List MoveRec
deriving DecidableEq

instance : Inhabited Batch := ⟨⟨0, []⟩⟩

/-- State of the `.dex_history.json` file: absent, unreadable / not valid
JSON, or a parsed list of batches. -/
inductive HistFile where
  | missing : HistFile
  | corrupt : HistFile
  | valid : List Batch → HistFile
deriving DecidableEq

/-- History content used by `_save_history` as its starting point: a missing,
empty or corrupt file is treated as the empty history. -/
def loadHistory : HistFile → List Batch
  | .missing => []
  | .corrupt => []
  | .valid h => h

/-- Embedding of `FileOrganizer._save_history`: append the batch and keep only
the last 10 entries (`history[-10:]`). -/
def save_history (hist : HistFile) (env : Env) (batch : List MoveRec) : HistFile :=
  let history := loadHistory hist ++ [⟨env.now, batch⟩]
  .valid (history.drop (history.length - 10))

/-- Full state seen by one `FileOrganizer`: the directory tree plus the
history file. -/
structure St where
  fs : FS
  hist : HistFile
deriving DecidableEq

/-- Embedding of `FileOrganizer._get_date_folder`: reads `st_mtime` (raising
if the file vanished, which is NOT caught anywhere in the source) and formats
it with the configured pattern. -/
def get_date_folder (env : Env) (fs : FS) (p : Path) : Except Unit String :=
  if env.oracle.vanished p then .error ()
  else
    match fs.lookup p with
    | some d => .ok (env.formatDate d.mtime)
    | none => .error ()

/-- Embedding of `FileOrganizer._get_target_folder`. -/
def get_target_folder (env : Env) (fs : FS) (p : Path) : Except Unit String :=
  if env.strategy = "date" then get_date_folder env fs p
  else .ok (get_extension_folder env.mappings (nameOf p))

/-- The hardcoded `self.project_files` set of organizer.py. -/
def projectFiles : List String :=
  ["main.py", "organizer.py", "utils.py", "config.yaml", "requirements.txt",
   "README.md", ".git", ".dex_history.json"]

/-- The fixed denylist of partial-download suffixes. -/
def partialSuffixes : List String :=
  [".crdownload", ".part", ".tmp"]

/-- A scanned name the loop body of `organize()` skips before classifying:
configured ignore list, the tool's own project files, or an in-progress
download suffix. -/
def skippedName (env : Env) (nm : String) : Bool :=
  env.ignore.contains nm || projectFiles.contains nm ||
    partialSuffixes.contains (pySuffix nm)

/-- Accumulator of the scan loop of `organize()`: the running move count, the
current batch and the evolving filesystem. -/
structure OrgAcc where
  count : Nat
  batch : List MoveRec
  fs : FS
deriving DecidableEq

/-- One iteration of the scan loop of `organize()` on a listed regular file.
An `.error` from the classifier (the uncaught `stat()` exception) propagates. -/
def orgStep (env : Env) (acc : OrgAcc) (e : Path × FileData) :
    Except Unit OrgAcc :=
  if skippedName env (nameOf e.1) then .ok acc
  else
    match get_target_folder env acc.fs e.1 with
    | .error err => .error err
    | .ok t =>
      if t ≠ "" then
        match safe_move env acc.fs e.1 [t] with
        | (some p, fs') => .ok ⟨acc.count + 1, acc.batch ++ [⟨e.1, p⟩], fs'⟩
        | (none, fs') => .ok ⟨acc.count, acc.batch, fs'⟩
      else .ok acc

/-- Hidden-name test of `_cleanup_empty_folders` (`name.startswith(".")`). -/
def hiddenName (d : Path) : Bool :=
  match (nameOf d).data with
  | [] => false
  | c :: _ => c = '.'

/-- Whether directory `d` currently has any entry (`any(path.iterdir())`). -/
def FS.dirNonempty (fs : FS) (d : Path) : Bool :=
  fs.files.any (fun e => d ≠ e.1 && d.isPrefixOf e.1) ||
    fs.dirs.any (fun q => d ≠ q && d.isPrefixOf q)

/-- One bottom-up level of `_cleanup_empty_folders`: every non-hidden
directory at depth `n` that is empty at the moment it is visited is removed. -/
def cleanupLevel (n : Nat) (fs : FS) : FS :=
  (fs.dirs.filter (fun d => d.length = n)).foldl
    (fun acc d =>
      if ¬ hiddenName d ∧ ¬ acc.dirNonempty d then acc.removeDir d else acc)
    fs

/-- Embedding of `FileOrganizer._cleanup_empty_folders`: `os.walk` bottom-up,
so directories are visited in order of decreasing depth; hidden names are
skipped and the emptiness test is live. -/
def cleanup_empty_folders (fs : FS) : FS :=
  let m := fs.dirs.foldl (fun a d => max a d.length) 0
  ((List.range m).reverse.map (fun i => i + 1)).foldl
    (fun acc n => cleanupLevel n acc) fs

/-- Embedding of `FileOrganizer.organize`.  `Except.error ()` models an
uncaught exception escaping the call (the source catches exceptions around
hashing, moving, deleting and the notification, but not around `stat()` in
`_get_date_folder`). -/
def organize (env : Env) (st : St) : Except Unit (Nat × St) :=
  if ¬ st.fs.rootNonempty then .ok (0, st)
  else
    match st.fs.rootFiles.foldlM (orgStep env) ⟨0, [], st.fs⟩ with
    | .error err => .error err
    | .ok acc =>
      .ok (acc.count,
        ⟨if ¬ env.dryRun then cleanup_empty_folders acc.fs else acc.fs,
         if acc.count > 0 ∧ ¬ env.dryRun then save_history st.hist env acc.batch
         else st.hist⟩)

/-- Embedding of `src_orig.parent.mkdir(parents=True, exist_ok=True)` in
`undo()`: create every missing ancestor directory of `d`; `none` models the
raised exception when a regular file occupies one of the ancestors. -/
def mkdirParents (fs : FS) (d : Path) : Option FS :=
  if d.inits.any (fun q => fs.isFile q) then none
  else
    some { fs with
           dirs := fs.dirs ++
             (d.inits.filter (fun q => q ≠ [] && ¬ fs.dirs.contains q)) }

/-- Embedding of `os.rename(dest_curr, src_orig)` in `undo()` for regular
files: `none` models a raised exception (source missing or a directory,
target an existing directory); renaming over an existing regular file
silently replaces it (POSIX). -/
def osRename (fs : FS) (src dst : Path) : Option FS :=
  match fs.lookup src with
  | none => none
  | some d =>
    if fs.isDir dst then none
    else some ((fs.removeFile src).addFile dst d)

/-- One iteration of the restore loop of `undo()`: a record whose destination
no longer exists is skipped with a warning; otherwise, outside dry-run, the
parent of the original path is created and the file is renamed back, with any
exception caught and logged for this record only. -/
def undoStep (env : Env) (fs : FS) (r : MoveRec) : FS :=
  if fs.exists_ r.dest then
    if ¬ env.dryRun then
      match mkdirParents fs (parentOf r.src) with
      | none => fs
      | some fs1 =>
        match osRename fs1 r.dest r.src with
        | none => fs1
        | some fs2 => fs2
    else fs
  else fs

/-- Embedding of `FileOrganizer.undo`.  A missing history file or an empty
history warns and returns before any action (in particular before cleanup); a
corrupt history raises inside the outer `try` and is logged, changing
nothing.  Otherwise the most recent batch is popped, its records are replayed
in reverse, the truncated history is persisted unless dry-run, and cleanup
runs — even in dry-run, since the call at the end of `undo()` is not guarded
by the dry-run flag. -/
def undo (env : Env) (st : St) : St :=
  match st.hist with
  | .missing => st
  | .corrupt => st
  | .valid [] => st
  | .valid hs =>
    let last := hs.getLastD default
    let rest := hs.dropLast
    let fs1 := (last.moves.reverse).foldl (undoStep env) st.fs
    let hist' := if ¬ env.dryRun then .valid rest else st.hist
    let fs2 := cleanup_empty_folders fs1
    ⟨fs2, hist'⟩

/-! Supporting lemmas about the cleanup pass. -/

/-- The body folded by `cleanupLevel` never touches regular files. -/
theorem cleanupLevel_files (n : Nat) (fs : FS) :
    (cleanupLevel n fs).files = fs.files := by
  unfold cleanupLevel
  generalize fs.dirs.filter (fun d => d.length = n) = l
  induction l generalizing fs with
  | nil => rfl
  | cons d l ih =>
    simp only [List.foldl_cons]
    split
    · exact (ih _).trans rfl
    · exact ih fs

/-- Folding cleanup levels never touches regular files. -/
theorem cleanupLevels_files (l : List Nat) (fs : FS) :
    (l.foldl (fun acc n => cleanupLevel n acc) fs).files = fs.files := by
  induction l generalizing fs with
  | nil => rfl
  | cons n l ih =>
    simp only [List.foldl_cons]
    rw [ih, cleanupLevel_files]

/-- Cleanup never touches regular files. -/
theorem cleanup_files (fs : FS) :
    (cleanup_empty_folders fs).files = fs.files := by
  unfold cleanup_empty_folders
  exact cleanupLevels_files _ fs

/-- A `cleanupLevel` pass only removes directory entries. -/
theorem cleanupLevel_dirs_subset (n : Nat) (fs : FS) :
    ∀ d ∈ (cleanupLevel n fs).dirs, d ∈ fs.dirs := by
  unfold cleanupLevel
  generalize fs.dirs.filter (fun d => d.length = n) = l
  induction l generalizing fs with
  | nil => exact fun d hd => hd
  | cons q l ih =>
    intro d hd
    simp only [List.foldl_cons] at hd
    split at hd
    · have := ih _ d hd
      simp only [FS.removeDir, List.mem_filter, decide_not] at this
      exact this.1
    · exact ih fs d hd

/-- Folding cleanup levels only removes directory entries. -/
theorem cleanupLevels_dirs_subset (l : List Nat) (fs : FS) :
    ∀ d ∈ (l.foldl (fun acc n => cleanupLevel n acc) fs).dirs, d ∈ fs.dirs := by
  induction l generalizing fs with
  | nil => exact fun d hd => hd
  | cons n l ih =>
    intro d hd
    simp only [List.foldl_cons] at hd
    exact cleanupLevel_dirs_subset n fs d (ih (cleanupLevel n fs) d hd)

/-- Cleanup only removes directory entries. -/
theorem cleanup_dirs_subset (fs : FS) :
    ∀ d ∈ (cleanup_empty_folders fs).dirs, d ∈ fs.dirs := by
  unfold cleanup_empty_folders
  exact cleanupLevels_dirs_subset _ fs

/-- A directory containing a regular file witnesses its own nonemptiness. -/
theorem dirNonempty_of_file (fs : FS) (d : Path) (e : Path × FileData)
    (he : e ∈ fs.files) (hne : d ≠ e.1) (hpre : d.isPrefixOf e.1) :
    fs.dirNonempty d := by
  unfold FS.dirNonempty
  rw [Bool.or_eq_true]
  refine Or.inl (List.any_eq_true.2 ⟨e, he, ?_⟩)
  simp [hne, hpre]

/-- Membership in `dirs` is preserved by removing a different directory. -/
theorem mem_removeDir (fs : FS) (d q : Path) (hd : d ∈ fs.dirs) (hne : d ≠ q) :
    d ∈ (fs.removeDir q).dirs := by
  simp only [FS.removeDir, List.mem_filter, decide_not, Bool.not_eq_eq_eq_not,
    Bool.not_true, decide_eq_false_iff_not]
  exact ⟨hd, hne⟩

/-- The inner fold of a cleanup level keeps any directory that still contains
a regular file. -/
theorem cleanupFold_keeps_nonempty (l : List Path) (fs : FS) (d : Path)
    (hd : d ∈ fs.dirs)
    (hfile : ∃ e ∈ fs.files, d ≠ e.1 ∧ d.isPrefixOf e.1) :
    d ∈ (l.foldl
      (fun acc q =>
        if ¬ hiddenName q ∧ ¬ acc.dirNonempty q then acc.removeDir q else acc)
      fs).dirs := by
  induction l generalizing fs with
  | nil => exact hd
  | cons q l ih =>
    simp only [List.foldl_cons]
    by_cases hc : ¬ hiddenName q ∧ ¬ fs.dirNonempty q
    · rw [if_pos hc]
      refine ih (fs.removeDir q) ?_ hfile
      refine mem_removeDir fs d q hd ?_
      intro hdq
      subst hdq
      obtain ⟨e, he, hne, hpre⟩ := hfile
      exact hc.2 (dirNonempty_of_file fs d e he hne hpre)
    · rw [if_neg hc]
      exact ih fs hd hfile

/-- A directory that still contains a regular file survives one cleanup
level. -/
theorem cleanupLevel_keeps_nonempty (n : Nat) (fs : FS) (d : Path)
    (hd : d ∈ fs.dirs)
    (hfile : ∃ e ∈ fs.files, d ≠ e.1 ∧ d.isPrefixOf e.1) :
    d ∈ (cleanupLevel n fs).dirs := by
  unfold cleanupLevel
  exact cleanupFold_keeps_nonempty _ fs d hd hfile

/-- Folding cleanup levels keeps any directory that still contains a regular
file. -/
theorem cleanupLevels_keeps_nonempty (l : List Nat) (fs : FS) (d : Path)
    (hd : d ∈ fs.dirs)
    (hfile : ∃ e ∈ fs.files, d ≠ e.1 ∧ d.isPrefixOf e.1) :
    d ∈ (l.foldl (fun acc n => cleanupLevel n acc) fs).dirs := by
  induction l generalizing fs with
  | nil => exact hd
  | cons n l ih =>
    simp only [List.foldl_cons]
    refine ih (cleanupLevel n fs) (cleanupLevel_keeps_nonempty n fs d hd hfile) ?_
    obtain ⟨e, he, hne, hpre⟩ := hfile
    exact ⟨e, (cleanupLevel_files n fs).symm ▸ he, hne, hpre⟩

/-- A directory that still contains a regular file survives the whole cleanup
pass. -/
theorem cleanup_keeps_nonempty (fs : FS) (d : Path)
    (hd : d ∈ fs.dirs)
    (hfile : ∃ e ∈ fs.files, d ≠ e.1 ∧ d.isPrefixOf e.1) :
    d ∈ (cleanup_empty_folders fs).dirs := by
  unfold cleanup_empty_folders
  exact cleanupLevels_keeps_nonempty _ fs d hd hfile

/-- Emptiness of `d` transfers to any state with the same files and fewer
directories. -/
theorem dirNonempty_false (fs0 acc : FS) (d : Path)
    (hfiles : acc.files = fs0.files)
    (hsub : ∀ q ∈ acc.dirs, q ∈ fs0.dirs)
    (hnof : ∀ e ∈ fs0.files, ¬ (d ≠ e.1 ∧ d.isPrefixOf e.1 = true))
    (hnod : ∀ q ∈ fs0.dirs, ¬ (d ≠ q ∧ d.isPrefixOf q = true)) :
    acc.dirNonempty d = false := by
  unfold FS.dirNonempty
  rw [Bool.or_eq_false_iff]
  constructor
  · rw [List.any_eq_false]
    intro e he
    rw [hfiles] at he
    have := hnof e he
    simp only [Bool.and_eq_true, decide_eq_true_eq] at *
    tauto
  · rw [List.any_eq_false]
    intro q hq
    have := hnod q (hsub q hq)
    simp only [Bool.and_eq_true, decide_eq_true_eq] at *
    tauto

/-- The inner fold of a cleanup level only removes directory entries. -/
theorem cleanupFold_dirs_subset (l : List Path) (fs : FS) :
    ∀ d ∈ (l.foldl
      (fun acc q =>
        if ¬ hiddenName q ∧ ¬ acc.dirNonempty q then acc.removeDir q else acc)
      fs).dirs, d ∈ fs.dirs := by
  induction l generalizing fs with
  | nil => exact fun d hd => hd
  | cons q l ih =>
    intro d hd
    simp only [List.foldl_cons] at hd
    by_cases hc : ¬ hiddenName q ∧ ¬ fs.dirNonempty q
    · rw [if_pos hc] at hd
      have := ih _ d hd
      simp only [FS.removeDir, List.mem_filter] at this
      exact this.1
    · rw [if_neg hc] at hd
      exact ih fs d hd

/-- The inner fold of a cleanup level never touches regular files. -/
theorem cleanupFold_files (l : List Path) (fs : FS) :
    (l.foldl
      (fun acc q =>
        if ¬ hiddenName q ∧ ¬ acc.dirNonempty q then acc.removeDir q else acc)
      fs).files = fs.files := by
  induction l generalizing fs with
  | nil => rfl
  | cons q l ih =>
    simp only [List.foldl_cons]
    by_cases hc : ¬ hiddenName q ∧ ¬ fs.dirNonempty q
    · rw [if_pos hc]; exact ih _
    · rw [if_neg hc]; exact ih fs

/-- Visiting an empty non-hidden directory inside a cleanup level removes it,
and it stays removed. -/
theorem cleanupFold_removes (l : List Path) (fs0 : FS) (d : Path)
    (hhid : hiddenName d = false)
    (hnof : ∀ e ∈ fs0.files, ¬ (d ≠ e.1 ∧ d.isPrefixOf e.1 = true))
    (hnod : ∀ q ∈ fs0.dirs, ¬ (d ≠ q ∧ d.isPrefixOf q = true)) :
    ∀ fs : FS, fs.files = fs0.files → (∀ q ∈ fs.dirs, q ∈ fs0.dirs) →
    (d ∈ l ∨ d ∉ fs.dirs) →
    d ∉ (l.foldl
      (fun acc q =>
        if ¬ hiddenName q ∧ ¬ acc.dirNonempty q then acc.removeDir q else acc)
      fs).dirs := by
  induction l with
  | nil =>
    intro fs _ _ hd
    rcases hd with hd | hd
    · exact absurd hd (List.not_mem_nil d)
    · exact hd
  | cons q l ih =>
    intro fs hfiles hsub hd
    simp only [List.foldl_cons]
    by_cases hdq : d = q
    · subst hdq
      have hne : fs.dirNonempty d = false :=
        dirNonempty_false fs0 fs d hfiles hsub hnof hnod
      rw [if_pos (by simp [hhid, hne])]
      refine ih (fs.removeDir d) (by simpa [FS.removeDir] using hfiles)
        (fun q hq => hsub q (by
          simp only [FS.removeDir, List.mem_filter] at hq
          exact hq.1)) (Or.inr ?_)
      simp [FS.removeDir]
    · have step : ∀ fs' : FS, fs'.files = fs0.files →
          (∀ r ∈ fs'.dirs, r ∈ fs0.dirs) → (d ∈ l ∨ d ∉ fs'.dirs) →
          d ∉ (l.foldl
            (fun acc r =>
              if ¬ hiddenName r ∧ ¬ acc.dirNonempty r then acc.removeDir r
              else acc) fs').dirs := ih
      by_cases hc : ¬ hiddenName q ∧ ¬ fs.dirNonempty q
      · rw [if_pos hc]
        refine step (fs.removeDir q) (by simpa [FS.removeDir] using hfiles)
          (fun r hr => hsub r (by
            simp only [FS.removeDir, List.mem_filter] at hr
            exact hr.1)) ?_
        rcases hd with hd | hd
        · rcases List.mem_cons.1 hd with h | h
          · exact absurd h hdq
          · exact Or.inl h
        · refine Or.inr ?_
          intro hmem
          exact hd (by
            simp only [FS.removeDir, List.mem_filter] at hmem
            exact hmem.1)
      · rw [if_neg hc]
        refine step fs hfiles hsub ?_
        rcases hd with hd | hd
        · rcases List.mem_cons.1 hd with h | h
          · exact absurd h hdq
          · exact Or.inl h
        · exact Or.inr hd

/-- An empty non-hidden directory of the right depth is removed by its
cleanup level. -/
theorem cleanupLevel_removes (n : Nat) (fs0 fs : FS) (d : Path)
    (hhid : hiddenName d = false)
    (hnof : ∀ e ∈ fs0.files, ¬ (d ≠ e.1 ∧ d.isPrefixOf e.1 = true))
    (hnod : ∀ q ∈ fs0.dirs, ¬ (d ≠ q ∧ d.isPrefixOf q = true))
    (hfiles : fs.files = fs0.files) (hsub : ∀ q ∈ fs.dirs, q ∈ fs0.dirs)
    (hlen : d.length = n) :
    d ∉ (cleanupLevel n fs).dirs := by
  unfold cleanupLevel
  refine cleanupFold_removes _ fs0 d hhid hnof hnod fs hfiles hsub ?_
  by_cases hmem : d ∈ fs.dirs
  · exact Or.inl (List.mem_filter.2 ⟨hmem, by simp [hlen]⟩)
  · exact Or.inr hmem

/-- A directory of depth other than the level being processed is not removed
by that level. -/
theorem cleanupLevel_keeps_other_depth (n : Nat) (fs : FS) (d : Path)
    (hlen : d.length ≠ n) (hd : d ∈ fs.dirs) :
    d ∈ (cleanupLevel n fs).dirs := by
  unfold cleanupLevel
  have : ∀ l : List Path, (∀ q ∈ l, q.length = n) → ∀ fs' : FS, d ∈ fs'.dirs →
      d ∈ (l.foldl
        (fun acc q =>
          if ¬ hiddenName q ∧ ¬ acc.dirNonempty q then acc.removeDir q
          else acc) fs').dirs := by
    intro l
    induction l with
    | nil => exact fun _ fs' h => h
    | cons q l ih =>
      intro hq fs' hd'
      simp only [List.foldl_cons]
      by_cases hc : ¬ hiddenName q ∧ ¬ fs'.dirNonempty q
      · rw [if_pos hc]
        refine ih (fun r hr => hq r (List.mem_cons.2 (Or.inr hr))) _ ?_
        refine mem_removeDir fs' d q hd' ?_
        intro hdq
        exact hlen (hdq ▸ hq q (List.mem_cons_self q l))
      · rw [if_neg hc]
        exact ih (fun r hr => hq r (List.mem_cons.2 (Or.inr hr))) fs' hd'
  refine this _ ?_ fs hd
  intro q hq
  have := List.mem_filter.1 hq
  simpa using this.2

/-- Bound for the fold computing the maximum directory depth. -/
theorem foldl_maxLen_init (l : List Path) (a : Nat) :
    a ≤ l.foldl (fun x q => max x q.length) a := by
  induction l generalizing a with
  | nil => exact Nat.le_refl a
  | cons q l ih => exact le_trans (Nat.le_max_left a q.length) (ih _)

/-- Every directory's depth is bounded by the fold computing the maximum
depth. -/
theorem foldl_maxLen_mem (l : List Path) (a : Nat) (d : Path) (hd : d ∈ l) :
    d.length ≤ l.foldl (fun x q => max x q.length) a := by
  induction l generalizing a with
  | nil => exact absurd hd (List.not_mem_nil d)
  | cons q l ih =>
    rcases List.mem_cons.1 hd with h | h
    · subst h
      exact le_trans (Nat.le_max_right a d.length) (foldl_maxLen_init l _)
    · exact ih _ h

/-- Processing the levels removes an everywhere-empty non-hidden directory
once its depth comes up, and it stays removed. -/
theorem cleanupLevels_removes (L : List Nat) (fs0 : FS) (d : Path)
    (hhid : hiddenName d = false)
    (hnof : ∀ e ∈ fs0.files, ¬ (d ≠ e.1 ∧ d.isPrefixOf e.1 = true))
    (hnod : ∀ q ∈ fs0.dirs, ¬ (d ≠ q ∧ d.isPrefixOf q = true)) :
    ∀ fs : FS, fs.files = fs0.files → (∀ q ∈ fs.dirs, q ∈ fs0.dirs) →
    (d.length ∈ L ∨ d ∉ fs.dirs) →
    d ∉ (L.foldl (fun acc n => cleanupLevel n acc) fs).dirs := by
  induction L with
  | nil =>
    intro fs _ _ hd
    rcases hd with hd | hd
    · exact absurd hd (List.not_mem_nil _)
    · exact hd
  | cons k L ih =>
    intro fs hfiles hsub hd
    simp only [List.foldl_cons]
    have hfiles' : (cleanupLevel k fs).files = fs0.files := by
      rw [cleanupLevel_files, hfiles]
    have hsub' : ∀ q ∈ (cleanupLevel k fs).dirs, q ∈ fs0.dirs :=
      fun q hq => hsub q (cleanupLevel_dirs_subset k fs q hq)
    refine ih (cleanupLevel k fs) hfiles' hsub' ?_
    rcases hd with hd | hd
    · rcases List.mem_cons.1 hd with h | h
      · exact Or.inr (cleanupLevel_removes k fs0 fs d hhid hnof hnod hfiles hsub h)
      · exact Or.inl h
    · refine Or.inr ?_
      intro hmem
      exact hd (cleanupLevel_dirs_subset k fs d hmem)

/-- Cleanup removes a non-hidden directory with no descendants at all. -/
theorem cleanup_removes_empty (fs : FS) (d : Path)
    (hd : d ∈ fs.dirs) (hne : d ≠ [])
    (hhid : hiddenName d = false)
    (hnof : ∀ e ∈ fs.files, ¬ (d ≠ e.1 ∧ d.isPrefixOf e.1 = true))
    (hnod : ∀ q ∈ fs.dirs, ¬ (d ≠ q ∧ d.isPrefixOf q = true)) :
    d ∉ (cleanup_empty_folders fs).dirs := by
  unfold cleanup_empty_folders
  refine cleanupLevels_removes _ fs d hhid hnof hnod fs rfl (fun q h => h) (Or.inl ?_)
  simp only [List.mem_map, List.mem_reverse, List.mem_range]
  have hlen : 1 ≤ d.length := by
    cases d with
    | nil => exact absurd rfl hne
    | cons a l => exact Nat.succ_le_succ (Nat.zero_le _)
  have hmax : d.length ≤ fs.dirs.foldl (fun x q => max x q.length) 0 :=
    foldl_maxLen_mem fs.dirs 0 d hd
  exact ⟨d.length - 1, by omega, by omega⟩

/-! Claim C7: history cap after every save. -/

/-- C7: after every history append performed by `organize()` — for any prior
state of the history file, a missing or corrupt one being treated as empty —
the persisted history is a valid list of at most 10 batches, consisting of
the most recent ones in oldest-first order (a suffix of the old history with
the new batch appended), with the newly appended batch last; batches older
than the most recent 10 are dropped. -/
theorem history_capped_after_save (hist : HistFile) (env : Env)
    (batch : List MoveRec) :
    ∃ l : List Batch,
      save_history hist env batch = .valid l ∧
      l.length = min 10 ((loadHistory hist).length + 1) ∧
      l.length ≤ 10 ∧
      l <:+ loadHistory hist ++ [⟨env.now, batch⟩] ∧
      l.getLastD default = ⟨env.now, batch⟩ := by
  unfold save_history
  refine ⟨_, rfl, ?_, ?_, ?_, ?_⟩
  · rw [List.length_drop, List.length_append]
    simp only [List.length_cons, List.length_nil]
    omega
  · rw [List.length_drop, List.length_append]
    simp only [List.length_cons, List.length_nil]
    omega
  · exact List.drop_suffix _ _
  · rw [List.length_append]
    simp only [List.length_cons, List.length_nil]
    rw [List.drop_append_of_le_length (by omega)]
    exact List.getLastD_concat _ _ _

/-! Claim C8: extension classification and letter case. -/

/-- C8 counterexample: with a mapping whose extension list is written in
upper case, a file whose extension matches it case-insensitively is NOT sent
to that mapping's folder, contradicting the claim that the lookup is
case-insensitive with respect to the configuration; the file falls through to
"Others". -/
theorem extension_folder_config_case_cex :
    get_extension_folder [("Documents", ["PDF"])] "a.pdf" = "Others" ∧
    get_extension_folder [("Documents", ["PDF"])] "a.pdf" ≠ "Documents" := by
  constructor
  · rfl
  · decide

/-- C8 amended: classification under the extension strategy is
case-insensitive in the file's extension only: the file's extension is
lowercased and then compared verbatim against the configured lists, so a
configuration entry not written in lower case never matches.  A file whose
lowercased extension appears verbatim in some mapping's list is classified
into the first such mapping's folder in mapping order; a file with no
extension, or with no verbatim match, is classified as "Others". -/
theorem extension_folder_amended (maps : List (String × List String))
    (nm nm' : String) :
    (lowerExt nm = lowerExt nm' →
      get_extension_folder maps nm = get_extension_folder maps nm') ∧
    (lowerExt nm = "" → get_extension_folder maps nm = "Others") ∧
    (∀ pre m₀ post, maps = pre ++ m₀ :: post → lowerExt nm ∈ m₀.2 →
      (∀ m ∈ pre, lowerExt nm ∉ m.2) → lowerExt nm ≠ "" →
      get_extension_folder maps nm = m₀.1) ∧
    ((∀ m ∈ maps, lowerExt nm ∉ m.2) → get_extension_folder maps nm = "Others") := by
  refine ⟨?_, ?_, ?_, ?_⟩
  · intro h
    unfold get_extension_folder
    rw [h]
  · intro h
    unfold get_extension_folder
    rw [if_pos h]
  · intro pre m₀ post hmaps hmem hpre hne
    subst hmaps
    unfold get_extension_folder
    rw [if_neg hne]
    have hfind : (pre ++ m₀ :: post).find? (fun m => lowerExt nm ∈ m.2) = some m₀ := by
      induction pre with
      | nil => exact List.find?_cons_of_pos _ (by simpa using hmem)
      | cons a pre ih =>
        rw [List.cons_append, List.find?_cons_of_neg]
        · exact ih (fun m hm => hpre m (List.mem_cons.2 (Or.inr hm)))
        · simpa using hpre a (List.mem_cons_self a pre)
    rw [hfind]
  · intro h
    unfold get_extension_folder
    by_cases hne : lowerExt nm = ""
    · rw [if_pos hne]
    · rw [if_neg hne]
      rw [List.find?_eq_none.2 (fun m hm => by simpa using h m hm)]

/-- Witness for `extension_folder_amended` at concrete inputs: "a.PDF" and
"b.pdf" have the same lowercased extension and classify identically, and a
lower-case configured list receives the file. -/
theorem extension_folder_amended_witness :
    get_extension_folder [("Documents", ["pdf"])] "a.PDF" =
      get_extension_folder [("Documents", ["pdf"])] "b.pdf" ∧
    get_extension_folder [("Images", ["jpg"]), ("Documents", ["pdf"])] "a.pdf" =
      "Documents" := by
  constructor
  · exact (extension_folder_amended [("Documents", ["pdf"])] "a.PDF" "b.pdf").1
      (by decide)
  · exact (extension_folder_amended [("Images", ["jpg"]), ("Documents", ["pdf"])]
      "a.pdf" "x").2.2.1 [("Images", ["jpg"])] ("Documents", ["pdf"]) []
      rfl (by decide) (by decide) (by decide)

/-! Claim C3: dry-run and filesystem mutation. -/

/-- Environment of a dry-run over an extension-strategy configuration. -/
def dryEnv : Env :=
  { mappings := [("Documents", ["txt"])], ignore := [], strategy := "extension",
    dryRun := true, formatDate := fun _ => "2024-01", now := 0,
    oracle := .benign }

/-- State with one recorded move in the history and an unrelated empty
directory `Empty`. -/
def dryUndoSt : St :=
  { fs := { files := [(["Documents", "a.txt"], ⟨"c", 0⟩)],
            dirs := [["Documents"], ["Empty"]] },
    hist := .valid [⟨3, [⟨["a.txt"], ["Documents", "a.txt"]⟩]⟩] }

/-- C3 failing input: `undo()` with `dry_run = true` still calls
`_cleanup_empty_folders()` (the call at the end of `undo` is not guarded by
the dry-run flag, unlike the one in `organize`), so the empty directory
`Empty` is removed from the filesystem even though the claim states that no
directory is created or removed in dry-run mode.  The move itself and the
history write are correctly suppressed. -/
theorem undo_dry_run_removes_directory :
    dryEnv.dryRun = true ∧
    ["Empty"] ∈ dryUndoSt.fs.dirs ∧
    ["Empty"] ∉ (undo dryEnv dryUndoSt).fs.dirs ∧
    (undo dryEnv dryUndoSt).fs.files = dryUndoSt.fs.files ∧
    (undo dryEnv dryUndoSt).hist = dryUndoSt.hist := by
  refine ⟨rfl, by decide, by decide, by decide, by decide⟩

/-! Claim C4: per-file I/O failures and the date strategy. -/

/-- Environment of a real-mode run under the date strategy in which the file
`gone.txt` vanishes between the directory listing and the per-file action. -/
def dateEnv : Env :=
  { mappings := [], ignore := [], strategy := "date", dryRun := false,
    formatDate := fun _ => "2024-01", now := 0,
    oracle := { vanished := fun p => p = ["gone.txt"],
                hashFails := fun _ => false } }

/-- Directory containing the vanishing file and one healthy file listed after
it. -/
def dateSt : St :=
  { fs := { files := [(["gone.txt"], ⟨"g", 5⟩), (["keep.pdf"], ⟨"k", 5⟩)],
            dirs := [] },
    hist := .missing }

/-- C4 failing input: under the date strategy, `_get_date_folder` calls
`file_path.stat()` with no exception handler anywhere on the path from
`organize()`'s scan loop, so a file that disappears between listing and
action raises `FileNotFoundError` out of `organize()`, aborting the whole
batch (the healthy `keep.pdf` is never processed) instead of being skipped
as a non-fatal per-file failure. -/
theorem organize_date_strategy_crash :
    organize dateEnv dateSt = .error () := by
  decide

/-! Lookup lemmas for the elementary filesystem operations. -/

/-- Name of a one-segment path. -/
theorem nameOf_singleton (a : String) : nameOf [a] = a := rfl

/-- Looking up `p` after filtering away the entries at `p` finds nothing. -/
theorem lookupIn_filter_self (l : List (Path × FileData)) (p : Path) :
    lookupIn (l.filter (fun e => ¬ e.1 = p)) p = none := by
  induction l with
  | nil => rfl
  | cons e l ih =>
    by_cases hep : e.1 = p
    · rw [List.filter_cons_of_neg (by simp [hep])]
      exact ih
    · rw [List.filter_cons_of_pos (by simp [hep])]
      simp only [lookupIn]
      rw [if_neg hep]
      exact ih

/-- Filtering away the entries at `p` does not change a lookup of a different
key. -/
theorem lookupIn_filter_ne (l : List (Path × FileData)) (p q : Path)
    (hne : q ≠ p) :
    lookupIn (l.filter (fun e => ¬ e.1 = p)) q = lookupIn l q := by
  induction l with
  | nil => rfl
  | cons e l ih =>
    by_cases hep : e.1 = p
    · have heq : ¬ (e.1 = q) := fun h => hne (h ▸ hep)
      rw [List.filter_cons_of_neg (by simp [hep])]
      rw [ih]
      simp only [lookupIn]
      rw [if_neg heq]
    · rw [List.filter_cons_of_pos (by simp [hep])]
      simp only [lookupIn]
      by_cases heq2 : e.1 = q
      · rw [if_pos heq2, if_pos heq2]
      · rw [if_neg heq2, if_neg heq2]
        exact ih

/-- A lookup that misses the first list continues in the second. -/
theorem lookupIn_append_of_none (l₁ l₂ : List (Path × FileData)) (p : Path)
    (h : lookupIn l₁ p = none) :
    lookupIn (l₁ ++ l₂) p = lookupIn l₂ p := by
  induction l₁ with
  | nil => rfl
  | cons e l ih =>
    simp only [lookupIn] at h
    by_cases hep : e.1 = p
    · rw [if_pos hep] at h
      exact absurd h (by simp)
    · rw [if_neg hep] at h
      rw [List.cons_append]
      simp only [lookupIn]
      rw [if_neg hep]
      exact ih h

/-- Removing a file empties its own lookup. -/
theorem lookup_removeFile_self (fs : FS) (p : Path) :
    (fs.removeFile p).lookup p = none := by
  unfold FS.removeFile FS.lookup
  exact lookupIn_filter_self fs.files p

/-- Removing a file leaves every other lookup unchanged. -/
theorem lookup_removeFile_other (fs : FS) (p q : Path) (hne : q ≠ p) :
    (fs.removeFile p).lookup q = fs.lookup q := by
  unfold FS.removeFile FS.lookup
  exact lookupIn_filter_ne fs.files p q hne

/-- Adding a file makes its own lookup return the data. -/
theorem lookup_addFile_self (fs : FS) (p : Path) (d : FileData) :
    (fs.addFile p d).lookup p = some d := by
  unfold FS.addFile FS.removeFile FS.lookup
  simp only
  rw [lookupIn_append_of_none _ _ _ (lookupIn_filter_self fs.files p)]
  simp [lookupIn]

/-- Adding a file leaves every other lookup unchanged. -/
theorem lookup_addFile_other (fs : FS) (p q : Path) (d : FileData)
    (hne : q ≠ p) :
    (fs.addFile p d).lookup q = fs.lookup q := by
  unfold FS.addFile FS.removeFile FS.lookup
  simp only
  have h2 : lookupIn (List.filter (fun e => ¬ e.1 = p) fs.files) q =
      lookupIn fs.files q := lookupIn_filter_ne fs.files p q hne
  have h3 : ∀ l₁ : List (Path × FileData),
      lookupIn (l₁ ++ [(p, d)]) q =
        if lookupIn l₁ q = none then lookupIn [(p, d)] q else lookupIn l₁ q := by
    intro l₁
    induction l₁ with
    | nil => simp [lookupIn]
    | cons e l ih =>
      by_cases heq : e.1 = q
      · simp [lookupIn, heq]
      · simp only [List.cons_append, lookupIn, if_neg heq]
        exact ih
  rw [h3, h2]
  by_cases hnone : lookupIn fs.files q = none
  · rw [if_pos hnone, hnone]
    have hpq : ¬ (p = q) := fun h => hne h.symm
    simp [lookupIn, hpq]
  · rw [if_neg hnone]

/-- A member of the root-file listing witnesses a nonempty directory. -/
theorem rootNonempty_of_mem (fs : FS) (e : Path × FileData)
    (he : e ∈ fs.rootFiles) : fs.rootNonempty = true := by
  unfold FS.rootFiles at he
  unfold FS.rootNonempty
  rw [Bool.or_eq_true]
  have := List.mem_filter.1 he
  exact Or.inl (List.any_eq_true.2 ⟨e, this.1, this.2⟩)

/-! Fold lemmas for the scan loop of `organize()`. -/

/-- A filtered-out name makes the loop body a no-op. -/
theorem orgStep_skipped (env : Env) (acc : OrgAcc) (e : Path × FileData)
    (h : skippedName env (nameOf e.1) = true) :
    orgStep env acc e = .ok acc := by
  unfold orgStep
  rw [if_pos h]

/-- A run of filtered-out entries leaves the loop state unchanged. -/
theorem orgFold_skipped (env : Env) (l : List (Path × FileData)) (acc : OrgAcc)
    (h : ∀ e ∈ l, skippedName env (nameOf e.1) = true) :
    l.foldlM (orgStep env) acc = .ok acc := by
  induction l with
  | nil => rfl
  | cons e l ih =>
    rw [List.foldlM_cons, orgStep_skipped env acc e (h e (List.mem_cons_self e l))]
    exact ih (fun e' he' => h e' (List.mem_cons.2 (Or.inr he')))

/-- Scan-loop evaluation when exactly one listed entry survives the filters:
the loop reduces to the body applied to that entry. -/
theorem orgFold_single (env : Env) (l₁ l₂ : List (Path × FileData))
    (e : Path × FileData) (acc acc' : OrgAcc)
    (h₁ : ∀ x ∈ l₁, skippedName env (nameOf x.1) = true)
    (h₂ : ∀ x ∈ l₂, skippedName env (nameOf x.1) = true)
    (hstep : orgStep env acc e = .ok acc') :
    (l₁ ++ e :: l₂).foldlM (orgStep env) acc = .ok acc' := by
  rw [List.foldlM_append, orgFold_skipped env l₁ acc h₁]
  show (e :: l₂).foldlM (orgStep env) acc = .ok acc'
  rw [List.foldlM_cons, hstep]
  exact orgFold_skipped env l₂ acc' h₂

/-- Cleanup does not affect file lookups. -/
theorem lookup_cleanup (fs : FS) (p : Path) :
    (cleanup_empty_folders fs).lookup p = fs.lookup p := by
  unfold FS.lookup
  rw [cleanup_files]

/-! Evaluation of `safe_move` in its duplicate-deletion case. -/

/-- When the candidate destination exists with both digests available and
equal, `safe_move` in real mode deletes the source, moves nothing and returns
`None`. -/
theorem safe_move_dedup (env : Env) (fs : FS) (nm F : String)
    (dsrc ddst : FileData)
    (hreal : env.dryRun = false)
    (hdir : fs.dirs.contains [F] = true)
    (hsrc : fs.lookup [nm] = some dsrc)
    (hdst : fs.lookup [F, nm] = some ddst)
    (heq : dsrc.content = ddst.content)
    (hnv₁ : env.oracle.vanished [nm] = false)
    (hnh₁ : env.oracle.hashFails [nm] = false)
    (hnv₂ : env.oracle.vanished [F, nm] = false)
    (hnh₂ : env.oracle.hashFails [F, nm] = false) :
    safe_move env fs [nm] [F] = (none, fs.removeFile [nm]) := by
  have hmemF : [F] ∈ fs.dirs := by simpa using hdir
  have hex : fs.exists_ [F] = true := by
    simp [FS.exists_, FS.isDir, hmemF]
  have hexd : fs.exists_ [F, nm] = true := by
    simp [FS.exists_, FS.isFile, hdst]
  have hfile : fs.isFile [nm] = true := by
    simp [FS.isFile, hsrc]
  have hh₁ : get_file_hash env.oracle fs [nm] = some dsrc.content := by
    simp [get_file_hash, hnh₁, hnv₁, hsrc]
  have hh₂ : get_file_hash env.oracle fs [F, nm] = some ddst.content := by
    simp [get_file_hash, hnh₂, hnv₂, hdst]
  simp [safe_move, hex, hexd, hh₁, hh₂, heq, hreal, osRemove, hnv₁, hfile,
    nameOf_singleton]

/-! Claim C1: deduplication inside `organize()`. -/

/-- C1: in a real (non-dry-run) `organize()` run, a scanned file whose
candidate destination already holds a file with the same successfully
computed digest is deleted by the Duplicate Assassin: the source disappears,
the destination file is untouched, every other file is untouched, no move is
recorded (the history is not even written), and the deletion does not count
toward the returned number of moves, which is therefore 0 here.  Stated for
a directory in which the deduplicated file is the only entry surviving the
scan filters. -/
theorem organize_dedup_deletes_source (env : Env) (st : St) (nm F : String)
    (dsrc ddst : FileData) (l₁ l₂ : List (Path × FileData))
    (hreal : env.dryRun = false)
    (hsplit : st.fs.rootFiles = l₁ ++ ([nm], dsrc) :: l₂)
    (hskip₁ : ∀ e ∈ l₁, skippedName env (nameOf e.1) = true)
    (hskip₂ : ∀ e ∈ l₂, skippedName env (nameOf e.1) = true)
    (hnoskip : skippedName env nm = false)
    (hT : get_target_folder env st.fs [nm] = .ok F)
    (hF : F ≠ "")
    (hdir : st.fs.dirs.contains [F] = true)
    (hsrc : st.fs.lookup [nm] = some dsrc)
    (hdst : st.fs.lookup [F, nm] = some ddst)
    (heq : dsrc.content = ddst.content)
    (hnv₁ : env.oracle.vanished [nm] = false)
    (hnh₁ : env.oracle.hashFails [nm] = false)
    (hnv₂ : env.oracle.vanished [F, nm] = false)
    (hnh₂ : env.oracle.hashFails [F, nm] = false) :
    ∃ st' : St,
      organize env st = .ok (0, st') ∧
      st'.fs.lookup [nm] = none ∧
      st'.fs.lookup [F, nm] = some ddst ∧
      (∀ p : Path, p ≠ [nm] → st'.fs.lookup p = st.fs.lookup p) ∧
      st'.hist = st.hist := by
  have hmem : ([nm], dsrc) ∈ st.fs.rootFiles := by
    rw [hsplit]
    exact List.mem_append.2 (Or.inr (List.mem_cons_self _ _))
  have hroot : st.fs.rootNonempty = true := rootNonempty_of_mem st.fs _ hmem
  have hsm := safe_move_dedup env st.fs nm F dsrc ddst hreal hdir hsrc hdst heq
    hnv₁ hnh₁ hnv₂ hnh₂
  have hstep : orgStep env ⟨0, [], st.fs⟩ ([nm], dsrc) =
      .ok ⟨0, [], st.fs.removeFile [nm]⟩ := by
    simp [orgStep, nameOf_singleton, hnoskip, hT, hF, hsm]
  have hfold : st.fs.rootFiles.foldlM (orgStep env) ⟨0, [], st.fs⟩ =
      .ok ⟨0, [], st.fs.removeFile [nm]⟩ := by
    rw [hsplit]
    exact orgFold_single env l₁ l₂ _ _ _ hskip₁ hskip₂ hstep
  refine ⟨⟨cleanup_empty_folders (st.fs.removeFile [nm]), st.hist⟩, ?_, ?_, ?_,
    ?_, rfl⟩
  · simp [organize, hroot, hfold, hreal]
  · rw [lookup_cleanup]
    exact lookup_removeFile_self st.fs [nm]
  · rw [lookup_cleanup]
    rw [lookup_removeFile_other st.fs [nm] [F, nm] (by simp)]
    exact hdst
  · intro p hp
    rw [lookup_cleanup]
    exact lookup_removeFile_other st.fs [nm] p hp

/-- Real-mode extension-strategy environment used by concrete dedup runs. -/
def dedupEnv : Env :=
  { mappings := [("Documents", ["txt"])], ignore := [], strategy := "extension",
    dryRun := false, formatDate := fun _ => "2024-01", now := 1,
    oracle := .benign }

/-- Directory holding `a.txt` and an identical copy already filed under
`Documents`. -/
def dedupSt : St :=
  { fs := { files := [(["a.txt"], ⟨"same", 0⟩),
                      (["Documents", "a.txt"], ⟨"same", 3⟩)],
            dirs := [["Documents"]] },
    hist := .missing }

/-- Witness for `organize_dedup_deletes_source` at a concrete input. -/
theorem organize_dedup_witness :
    ∃ st' : St, organize dedupEnv dedupSt = .ok (0, st') ∧
      st'.fs.lookup ["a.txt"] = none ∧
      st'.fs.lookup ["Documents", "a.txt"] = some ⟨"same", 3⟩ ∧
      st'.hist = .missing := by
  obtain ⟨st', h1, h2, h3, h4, h5⟩ :=
    organize_dedup_deletes_source dedupEnv dedupSt "a.txt" "Documents"
      ⟨"same", 0⟩ ⟨"same", 3⟩ [] [] rfl (by decide)
      (by intro e he; cases he) (by intro e he; cases he)
      (by decide) (by decide) (by decide) (by decide)
      (by decide) (by decide) rfl rfl rfl rfl rfl
  exact ⟨st', h1, h2, h3, h5⟩

/-! Decimal printing of counters: `Nat.repr` is injective, which bounds
the collision rename loop. -/

/-- Digits already accumulated are appended unchanged by `Nat.toDigitsCore`. -/
theorem toDigitsCore_eq_append (b : Nat) :
    ∀ (f n : Nat) (l : List Char),
      Nat.toDigitsCore b f n l = Nat.toDigitsCore b f n [] ++ l := by
  intro f
  induction f with
  | zero => intro n l; rfl
  | succ f ih =>
    intro n l
    simp only [Nat.toDigitsCore]
    by_cases h : n / b = 0
    · rw [if_pos h, if_pos h]
      rfl
    · rw [if_neg h, if_neg h]
      rw [ih (n / b) (Nat.digitChar (n % b) :: l),
        ih (n / b) [Nat.digitChar (n % b)]]
      rw [List.append_assoc]
      rfl

/-- With sufficient fuel the result of `Nat.toDigitsCore` does not depend on
the exact amount of fuel. -/
theorem toDigitsCore_fuel_irrelevant (b : Nat) (hb : 2 ≤ b) :
    ∀ (n f f' : Nat), n < f → n < f' →
      Nat.toDigitsCore b f n [] = Nat.toDigitsCore b f' n [] := by
  intro n
  induction n using Nat.strong_induction_on with
  | _ n ih =>
    intro f f' hf hf'
    cases f with
    | zero => omega
    | succ f =>
      cases f' with
      | zero => omega
      | succ f' =>
        simp only [Nat.toDigitsCore]
        by_cases h : n / b = 0
        · rw [if_pos h, if_pos h]
        · rw [if_neg h, if_neg h]
          have hn1 : 1 ≤ n := by
            by_contra hn
            push_neg at hn
            interval_cases n
            simp at h
          have hdiv : n / b < n := Nat.div_lt_self (by omega) (by omega)
          rw [toDigitsCore_eq_append b f (n / b),
            toDigitsCore_eq_append b f' (n / b)]
          rw [ih (n / b) hdiv f f' (by omega) (by omega)]

/-- Unfolding of `Nat.toDigits 10` for small numbers. -/
theorem toDigits_lt_ten (n : Nat) (h : n < 10) :
    Nat.toDigits 10 n = [Nat.digitChar n] := by
  unfold Nat.toDigits
  simp only [Nat.toDigitsCore]
  rw [if_pos (Nat.div_eq_of_lt h)]
  rw [Nat.mod_eq_of_lt h]

/-- Unfolding of `Nat.toDigits 10` for larger numbers. -/
theorem toDigits_ge_ten (n : Nat) (h : 10 ≤ n) :
    Nat.toDigits 10 n = Nat.toDigits 10 (n / 10) ++ [Nat.digitChar (n % 10)] := by
  conv_lhs => unfold Nat.toDigits
  simp only [Nat.toDigitsCore]
  have h0 : ¬ n / 10 = 0 := by
    intro hc
    have := Nat.div_eq_of_lt (by omega : n < 10)
    omega
  · rw [if_neg (by
      intro hc
      exact h0 hc)]
    rw [toDigitsCore_eq_append 10 n (n / 10)]
    unfold Nat.toDigits
    congr 1
    have hdiv : n / 10 < n := Nat.div_lt_self (by omega) (by omega)
    exact toDigitsCore_fuel_irrelevant 10 (by omega) (n / 10) n (n / 10 + 1)
      (by omega) (by omega)

/-- Numeric value of a most-significant-first digit character list. -/
def val10 (l : List Char) : Nat :=
  l.foldl (fun a c => a * 10 + (c.toNat - 48)) 0

theorem val10_append_singleton (l : List Char) (c : Char) :
    val10 (l ++ [c]) = val10 l * 10 + (c.toNat - 48) := by
  unfold val10
  rw [List.foldl_append]
  rfl

theorem digitChar_toNat : ∀ d : Nat, d < 10 → (Nat.digitChar d).toNat = 48 + d := by
  decide

/-- The decimal digit list of `n` evaluates back to `n`. -/
theorem val10_toDigits (n : Nat) : val10 (Nat.toDigits 10 n) = n := by
  induction n using Nat.strong_induction_on with
  | _ n ih =>
    by_cases h : n < 10
    · rw [toDigits_lt_ten n h]
      show 0 * 10 + ((Nat.digitChar n).toNat - 48) = n
      rw [digitChar_toNat n h]
      omega
    · push_neg at h
      rw [toDigits_ge_ten n h]
      rw [val10_append_singleton]
      have hdiv : n / 10 < n := Nat.div_lt_self (by omega) (by omega)
      rw [ih (n / 10) hdiv]
      rw [digitChar_toNat (n % 10) (Nat.mod_lt n (by omega))]
      omega

/-- Decimal printing of natural numbers is injective. -/
theorem natRepr_injective (m n : Nat) (h : Nat.repr m = Nat.repr n) : m = n := by
  have hd : Nat.toDigits 10 m = Nat.toDigits 10 n := by
    have := congrArg String.data h
    simpa [Nat.repr, List.asString] using this
  have := congrArg val10 hd
  rwa [val10_toDigits, val10_toDigits] at this

/-- The candidate names generated by the rename loop are pairwise distinct. -/
theorem candName_injective (stem suffix : String) (j k : Nat)
    (h : candName stem suffix j = candName stem suffix k) : j = k := by
  unfold candName at h
  have hdata := congrArg String.data h
  simp only [String.data_append] at hdata
  have h1 := List.append_cancel_right hdata
  have h2 := List.append_cancel_left h1
  have h3 : Nat.repr j = Nat.repr k := by
    cases hr : Nat.repr j with
    | mk l =>
      cases hr' : Nat.repr k with
      | mk l' =>
        rw [hr, hr'] at h2
        simp only at h2
        rw [h2]
  exact natRepr_injective j k h3

/-- The candidate paths generated by the rename loop are pairwise distinct. -/
theorem candPath_injective (D : Path) (stem suffix : String) (j k : Nat)
    (h : D ++ [candName stem suffix j] = D ++ [candName stem suffix k]) :
    j = k := by
  have h1 := List.append_cancel_left h
  simp only [List.cons.injEq, and_true] at h1
  exact candName_injective stem suffix j k h1

/-- A successful lookup means the key occurs among the file paths. -/
theorem mem_of_lookupIn_isSome (l : List (Path × FileData)) (p : Path)
    (h : (lookupIn l p).isSome = true) : p ∈ l.map (fun e => e.1) := by
  induction l with
  | nil => simp [lookupIn] at h
  | cons e l ih =>
    simp only [lookupIn] at h
    by_cases hep : e.1 = p
    · rw [List.map_cons, ← hep]
      exact List.mem_cons_self e.1 _
    · rw [if_neg hep] at h
      rw [List.map_cons]
      exact List.mem_cons.2 (Or.inr (ih h))

/-- An existing path other than the root occurs among the file paths or the
directory entries. -/
theorem mem_universe_of_exists (fs : FS) (p : Path) (hne : p ≠ [])
    (h : fs.exists_ p = true) :
    p ∈ fs.files.map (fun e => e.1) ++ fs.dirs := by
  unfold FS.exists_ FS.isFile FS.isDir FS.lookup at h
  rw [Bool.or_eq_true] at h
  rcases h with h | h
  · exact List.mem_append.2 (Or.inl (mem_of_lookupIn_isSome fs.files p h))
  · rw [Bool.or_eq_true] at h
    rcases h with h | h
    · exact absurd (by simpa using h) hne
    · exact List.mem_append.2 (Or.inr (by simpa using h))

/-- Pigeonhole: among `loopFuel fs` consecutive candidate names, at least one
does not exist in the filesystem. -/
theorem exists_free_candidate (fs : FS) (D : Path) (stem suffix : String)
    (k : Nat) :
    ∃ j, j < loopFuel fs ∧
      fs.exists_ (D ++ [candName stem suffix (k + j)]) = false := by
  by_contra hc
  push_neg at hc
  have hall : ∀ j < loopFuel fs,
      fs.exists_ (D ++ [candName stem suffix (k + j)]) = true := by
    intro j hj
    have := hc j hj
    cases h : fs.exists_ (D ++ [candName stem suffix (k + j)]) with
    | false => exact absurd h this
    | true => rfl
  set C : List Path :=
    (List.range (loopFuel fs)).map
      (fun j => D ++ [candName stem suffix (k + j)]) with hC
  have hnodup : C.Nodup := by
    refine List.Nodup.map ?_ (List.nodup_range _)
    intro a b hab
    have := candPath_injective D stem suffix (k + a) (k + b) hab
    omega
  have hsub : C ⊆ fs.files.map (fun e => e.1) ++ fs.dirs := by
    intro p hp
    rw [hC] at hp
    simp only [List.mem_map, List.mem_range] at hp
    obtain ⟨j, hj, rfl⟩ := hp
    exact mem_universe_of_exists fs _ (by simp) (hall j hj)
  have h1 : C.toFinset.card = C.length := List.toFinset_card_of_nodup hnodup
  have h2 : C.toFinset ⊆ (fs.files.map (fun e => e.1) ++ fs.dirs).toFinset := by
    intro x hx
    simp only [List.mem_toFinset] at hx ⊢
    exact hsub hx
  have h3 := Finset.card_le_card h2
  have h4 := (fs.files.map (fun e => e.1) ++ fs.dirs).toFinset_card_le
  have h5 : C.length = loopFuel fs := by simp [hC]
  have h6 : (fs.files.map (fun e => e.1) ++ fs.dirs).length =
      fs.files.length + fs.dirs.length := by simp
  unfold loopFuel at h5
  omega

/-- Characterization of the rename loop: given enough fuel it returns the
first free candidate, every smaller candidate having been checked to exist. -/
theorem renameLoop_finds_least (fs : FS) (D : Path) (stem suffix : String) :
    ∀ (fuel k : Nat),
      (∃ j, j < fuel ∧
        fs.exists_ (D ++ [candName stem suffix (k + j)]) = false) →
      ∃ j,
        renameLoop fs D stem suffix k fuel =
          D ++ [candName stem suffix (k + j)] ∧
        fs.exists_ (D ++ [candName stem suffix (k + j)]) = false ∧
        ∀ i < j, fs.exists_ (D ++ [candName stem suffix (k + i)]) = true := by
  intro fuel
  induction fuel with
  | zero =>
    intro k h
    obtain ⟨j, hj, _⟩ := h
    omega
  | succ fuel ih =>
    intro k h
    by_cases hc : fs.exists_ (D ++ [candName stem suffix k]) = true
    · have hstep : renameLoop fs D stem suffix k (fuel + 1) =
          renameLoop fs D stem suffix (k + 1) fuel := by
        simp only [renameLoop]
        rw [if_pos hc]
      obtain ⟨j, hj, hfree⟩ := h
      have hj0 : j ≠ 0 := by
        intro h0
        subst h0
        simp only [Nat.add_zero] at hfree
        rw [hc] at hfree
        cases hfree
      obtain ⟨j', rfl⟩ : ∃ j', j = j' + 1 := ⟨j - 1, by omega⟩
      have hshift : ∃ i, i < fuel ∧
          fs.exists_ (D ++ [candName stem suffix (k + 1 + i)]) = false := by
        refine ⟨j', by omega, ?_⟩
        have : k + 1 + j' = k + (j' + 1) := by omega
        rw [this]
        exact hfree
      obtain ⟨j'', heq, hfree'', hall''⟩ := ih (k + 1) hshift
      refine ⟨j'' + 1, ?_, ?_, ?_⟩
      · rw [hstep, heq]
        have : k + 1 + j'' = k + (j'' + 1) := by omega
        rw [this]
      · have : k + (j'' + 1) = k + 1 + j'' := by omega
        rw [this]
        exact hfree''
      · intro i hi
        cases i with
        | zero => simpa using hc
        | succ i' =>
          have : k + (i' + 1) = k + 1 + i' := by omega
          rw [this]
          exact hall'' i' (by omega)
    · have hcf : fs.exists_ (D ++ [candName stem suffix k]) = false := by
        cases h' : fs.exists_ (D ++ [candName stem suffix k]) with
        | false => rfl
        | true => exact absurd h' hc
      refine ⟨0, ?_, by simpa using hcf, by omega⟩
      simp only [renameLoop]
      rw [if_neg hc]
      simp

/-! Claim C5: collision with unavailable or mismatched digests. -/

/-- C5: when the candidate destination exists but the two digests are not
both available and equal (hash failure on either side, or differing
contents), the source is never deleted: `safe_move` in real mode moves it,
with its content intact, to the first free suffixed name, the smallest
counter `k ≥ 1` whose candidate path does not exist, every smaller candidate
having been found to exist when re-checked. -/
theorem safe_move_collision_renames (env : Env) (fs : FS) (src D : Path)
    (nm : String) (d : FileData)
    (hnm : nameOf src = nm)
    (hreal : env.dryRun = false)
    (hexD : fs.exists_ D = true)
    (hDdir : fs.isDir D = true)
    (hcand : fs.exists_ (D ++ [nm]) = true)
    (hnodedup : ¬ ((get_file_hash env.oracle fs src).isSome = true ∧
        (get_file_hash env.oracle fs (D ++ [nm])).isSome = true ∧
        get_file_hash env.oracle fs src =
          get_file_hash env.oracle fs (D ++ [nm])))
    (hsrc : fs.lookup src = some d)
    (hnv : env.oracle.vanished src = false) :
    ∃ k, 1 ≤ k ∧
      safe_move env fs src D =
        (some (D ++ [candName (pyStem nm) (pySuffix nm) k]),
         (fs.removeFile src).addFile
           (D ++ [candName (pyStem nm) (pySuffix nm) k]) d) ∧
      fs.exists_ (D ++ [candName (pyStem nm) (pySuffix nm) k]) = false ∧
      (∀ i, 1 ≤ i → i < k →
        fs.exists_ (D ++ [candName (pyStem nm) (pySuffix nm) i]) = true) ∧
      ((fs.removeFile src).addFile
          (D ++ [candName (pyStem nm) (pySuffix nm) k]) d).lookup
        (D ++ [candName (pyStem nm) (pySuffix nm) k]) = some d := by
  obtain ⟨j, hres, hfree, hall⟩ :=
    renameLoop_finds_least fs D (pyStem nm) (pySuffix nm) (loopFuel fs) 1
      (exists_free_candidate fs D (pyStem nm) (pySuffix nm) 1)
  set dest' := D ++ [candName (pyStem nm) (pySuffix nm) (1 + j)] with hdest
  have hdirn : fs.isDir dest' = false := by
    unfold FS.exists_ at hfree
    rw [Bool.or_eq_false_iff] at hfree
    exact hfree.2
  have hparent : parentOf dest' = D := by
    rw [hdest]
    unfold parentOf
    exact List.dropLast_concat
  have hmove : osMove env.oracle fs src dest' =
      some ((fs.removeFile src).addFile dest' d) := by
    unfold osMove
    rw [if_neg (by simp [hnv])]
    rw [hsrc]
    simp [hparent, hDdir, hdirn]
  have hsm : safe_move env fs src D =
      (some dest', (fs.removeFile src).addFile dest' d) := by
    simp only [safe_move, hnm, hexD, hreal, hcand]
    simp only [not_true, false_and, and_false, if_false, ite_false]
    rw [if_neg hnodedup]
    simp only [hres, hreal, hmove]
    simp
    intro hcontra
    rw [hcand] at hcontra
    cases hcontra
  refine ⟨1 + j, by omega, hsm, hfree, ?_, lookup_addFile_self _ _ _⟩
  intro i h1 hik
  obtain ⟨i', rfl⟩ : ∃ i', i = 1 + i' := ⟨i - 1, by omega⟩
  exact hall i' (by omega)

/-- Directory used by the concrete collision-rename run: the incoming
`a.txt` differs in content from the `a.txt` already filed. -/
def renameFS : FS :=
  { files := [(["a.txt"], ⟨"new", 0⟩), (["Documents", "a.txt"], ⟨"old", 7⟩)],
    dirs := [["Documents"]] }

/-- Witness for `safe_move_collision_renames` at a concrete input. -/
theorem safe_move_collision_witness :
    ∃ k, 1 ≤ k ∧
      safe_move dedupEnv renameFS ["a.txt"] ["Documents"] =
        (some (["Documents"] ++ [candName (pyStem "a.txt") (pySuffix "a.txt") k]),
         (renameFS.removeFile ["a.txt"]).addFile
           (["Documents"] ++ [candName (pyStem "a.txt") (pySuffix "a.txt") k])
           ⟨"new", 0⟩) ∧
      renameFS.exists_
        (["Documents"] ++ [candName (pyStem "a.txt") (pySuffix "a.txt") k]) =
        false ∧
      (∀ i, 1 ≤ i → i < k →
        renameFS.exists_
          (["Documents"] ++ [candName (pyStem "a.txt") (pySuffix "a.txt") i]) =
          true) ∧
      ((renameFS.removeFile ["a.txt"]).addFile
          (["Documents"] ++ [candName (pyStem "a.txt") (pySuffix "a.txt") k])
          ⟨"new", 0⟩).lookup
        (["Documents"] ++ [candName (pyStem "a.txt") (pySuffix "a.txt") k]) =
        some ⟨"new", 0⟩ :=
  safe_move_collision_renames dedupEnv renameFS ["a.txt"] ["Documents"] "a.txt"
    ⟨"new", 0⟩ rfl rfl (by decide) (by decide) (by decide) (by decide)
    (by decide) rfl

/-- Membership form of a positive `List.contains` fact. -/
theorem mem_of_contains (l : List Path) (a : Path) (h : l.contains a = true) :
    a ∈ l :=
  List.elem_iff.1 h

/-- Membership form of a negative `List.contains` fact. -/
theorem not_mem_of_contains_false (l : List Path) (a : Path)
    (h : l.contains a = false) : a ∉ l := by
  intro hm
  have hc : l.contains a = true := List.elem_iff.2 hm
  rw [hc] at h
  cases h

/-- A non-member yields a negative `List.contains` fact. -/
theorem contains_false_of_not_mem (l : List Path) (a : Path) (h : a ∉ l) :
    l.contains a = false := by
  cases hc : l.contains a with
  | false => rfl
  | true => exact absurd (List.elem_iff.1 hc) h

/-! Unfolding lemmas for `undo()`. -/

/-- With a nonempty valid history, `undo` replays the last batch in reverse,
persists the truncated history unless dry-run, and always runs cleanup. -/
theorem undo_valid_nonempty (env : Env) (st : St) (h : List Batch) (b : Batch)
    (hh : st.hist = .valid (h ++ [b])) :
    undo env st =
      ⟨cleanup_empty_folders ((b.moves.reverse).foldl (undoStep env) st.fs),
       if ¬ env.dryRun then .valid h else st.hist⟩ := by
  cases hc : h ++ [b] with
  | nil => exact absurd hc (by simp)
  | cons b0 rest =>
    have h1 : (b0 :: rest).getLastD default = b := by
      rw [← hc]
      exact List.getLastD_concat _ _ _
    have h2 : (b0 :: rest).dropLast = h := by
      rw [← hc]
      exact List.dropLast_concat
    unfold undo
    rw [hh, hc]
    show (⟨cleanup_empty_folders
        ((((b0 :: rest).getLastD default).moves.reverse).foldl
          (undoStep env) st.fs),
      if ¬ env.dryRun then .valid ((b0 :: rest).dropLast)
      else HistFile.valid (b0 :: rest)⟩ : St) =
      ⟨cleanup_empty_folders ((b.moves.reverse).foldl (undoStep env) st.fs),
       if ¬ env.dryRun then .valid h else HistFile.valid (b0 :: rest)⟩
    rw [h1, h2]

/-- With no history file, a corrupt one, or an empty history, `undo` changes
nothing (in particular cleanup does not run). -/
theorem undo_no_history (env : Env) (st : St)
    (h : st.hist = .missing ∨ st.hist = .corrupt ∨ st.hist = .valid []) :
    undo env st = st := by
  unfold undo
  rcases h with h | h | h <;> rw [h]

/-! Claim C10: restore over an occupied original path. -/

/-- C10: during a real-mode `undo()`, a record whose destination still exists
while its original source path is now occupied by a different file is
restored with `os.rename`, which silently replaces the occupying file: no
existence check is made on the source path and no collision suffix is
applied; afterwards the original path holds the moved-back content and the
occupier's content is gone. -/
theorem undo_restore_replaces_occupier (env : Env) (st : St)
    (h : List Batch) (t : Nat) (r : MoveRec) (dd d0 : FileData)
    (hreal : env.dryRun = false)
    (hh : st.hist = .valid (h ++ [⟨t, [r]⟩]))
    (hdest : st.fs.lookup r.dest = some dd)
    (hocc : st.fs.lookup r.src = some d0)
    (hdiff : d0 ≠ dd)
    (hne : r.src ≠ r.dest)
    (hsrcne : r.src ≠ [])
    (hsrcdir : st.fs.dirs.contains r.src = false)
    (hpar : ∀ q ∈ (parentOf r.src).inits, st.fs.isFile q = false) :
    (undo env st).hist = .valid h ∧
    (undo env st).fs.lookup r.src = some dd ∧
    (undo env st).fs.lookup r.src ≠ some d0 ∧
    (undo env st).fs.lookup r.dest = none := by
  have hun := undo_valid_nonempty env st h ⟨t, [r]⟩ hh
  have hmk : mkdirParents st.fs (parentOf r.src) =
      some { st.fs with
             dirs := st.fs.dirs ++
               ((parentOf r.src).inits.filter
                 (fun q => q ≠ [] && ¬ st.fs.dirs.contains q)) } := by
    unfold mkdirParents
    rw [if_neg ?_]
    intro hc
    rw [List.any_eq_true] at hc
    obtain ⟨q, hq, hq2⟩ := hc
    rw [hpar q hq] at hq2
    cases hq2
  set fs1 : FS :=
    { st.fs with
      dirs := st.fs.dirs ++
        ((parentOf r.src).inits.filter
          (fun q => q ≠ [] && ¬ st.fs.dirs.contains q)) } with hfs1
  have hlook1 : fs1.lookup r.dest = some dd := hdest
  have hsrcdir1 : fs1.isDir r.src = false := by
    unfold FS.isDir
    rw [Bool.or_eq_false_iff]
    refine ⟨by simp [hsrcne], ?_⟩
    apply contains_false_of_not_mem
    intro hmem
    rw [hfs1] at hmem
    simp only at hmem
    rcases List.mem_append.1 hmem with hmem | hmem
    · exact not_mem_of_contains_false _ _ hsrcdir hmem
    · have hq := List.mem_filter.1 hmem
      have hlen : r.src.length ≤ (parentOf r.src).length :=
        List.IsPrefix.length_le ((List.mem_inits _ _).1 hq.1)
      unfold parentOf at hlen
      rw [List.length_dropLast] at hlen
      cases hsrc0 : r.src with
      | nil => exact hsrcne hsrc0
      | cons a l =>
        rw [hsrc0] at hlen
        simp only [List.length_cons] at hlen
        omega
  have hren : osRename fs1 r.dest r.src =
      some ((fs1.removeFile r.dest).addFile r.src dd) := by
    unfold osRename
    rw [hlook1, hsrcdir1]
    simp
  have hstep : undoStep env st.fs r = (fs1.removeFile r.dest).addFile r.src dd := by
    unfold undoStep
    rw [if_pos ?_]
    · rw [if_pos (by simp [hreal])]
      simp only [hmk, hren]
    · unfold FS.exists_ FS.isFile
      rw [hdest]
      simp
  rw [hun]
  simp only [hreal, Bool.false_eq_true, not_false_eq_true, if_true]
  have hfold : (([r] : List MoveRec).reverse).foldl (undoStep env) st.fs =
      (fs1.removeFile r.dest).addFile r.src dd := by
    rw [List.reverse_singleton, List.foldl_cons, List.foldl_nil, hstep]
  refine ⟨trivial, ?_, ?_, ?_⟩
  · show (cleanup_empty_folders ((([r] : List MoveRec).reverse).foldl
      (undoStep env) st.fs)).lookup r.src = some dd
    rw [hfold, lookup_cleanup]
    exact lookup_addFile_self _ _ _
  · show (cleanup_empty_folders ((([r] : List MoveRec).reverse).foldl
      (undoStep env) st.fs)).lookup r.src ≠ some d0
    rw [hfold, lookup_cleanup, lookup_addFile_self]
    intro hcontra
    exact hdiff (by injection hcontra with hcv; exact hcv.symm)
  · show (cleanup_empty_folders ((([r] : List MoveRec).reverse).foldl
      (undoStep env) st.fs)).lookup r.dest = none
    rw [hfold, lookup_cleanup,
      lookup_addFile_other _ _ _ _ (fun hc => hne hc.symm)]
    exact lookup_removeFile_self fs1 r.dest

/-- State for the concrete restore-over-occupier run: `a.txt` was moved to
`Documents/a.txt` and the root path has since been reoccupied. -/
def occupiedSt : St :=
  { fs := { files := [(["a.txt"], ⟨"occupier", 9⟩),
                      (["Documents", "a.txt"], ⟨"moved", 2⟩)],
            dirs := [["Documents"]] },
    hist := .valid [⟨5, [⟨["a.txt"], ["Documents", "a.txt"]⟩]⟩] }

/-- Witness for `undo_restore_replaces_occupier` at a concrete input. -/
theorem undo_restore_replaces_occupier_witness :
    (undo dedupEnv occupiedSt).hist = .valid [] ∧
    (undo dedupEnv occupiedSt).fs.lookup ["a.txt"] = some ⟨"moved", 2⟩ ∧
    (undo dedupEnv occupiedSt).fs.lookup ["a.txt"] ≠ some ⟨"occupier", 9⟩ ∧
    (undo dedupEnv occupiedSt).fs.lookup ["Documents", "a.txt"] = none :=
  undo_restore_replaces_occupier dedupEnv occupiedSt []
    5 ⟨["a.txt"], ["Documents", "a.txt"]⟩ ⟨"moved", 2⟩ ⟨"occupier", 9⟩
    rfl rfl (by decide) (by decide) (by decide) (by decide) (by decide)
    (by decide) (by decide)

/-! Helper lemmas for the restore loop of `undo()`. -/

/-- A nonempty path is not among the prefixes of its own parent. -/
theorem not_mem_parent_inits (p : Path) (hne : p ≠ []) :
    p ∉ (parentOf p).inits := by
  intro hmem
  have hlen : p.length ≤ (parentOf p).length :=
    List.IsPrefix.length_le ((List.mem_inits _ _).1 hmem)
  unfold parentOf at hlen
  rw [List.length_dropLast] at hlen
  cases hp : p with
  | nil => exact hne hp
  | cons a l =>
    rw [hp] at hlen
    simp only [List.length_cons] at hlen
    omega

/-- The directories `mkdirParents` adds for `r.src`'s parent. -/
def padd (fs : FS) (p : Path) : List Path :=
  (parentOf p).inits.filter (fun q => q ≠ [] && ¬ fs.dirs.contains q)

/-- Every added directory is a prefix of the parent. -/
theorem mem_padd_sub (fs : FS) (p q : Path) (h : q ∈ padd fs p) :
    q ∈ (parentOf p).inits :=
  (List.mem_filter.1 h).1

/-- One restore step when the recorded destination is still a file and the
original path is restorable: the destination is renamed onto the source path
and the parent chain of the source is created. -/
theorem undoStep_restores (env : Env) (fs : FS) (r : MoveRec) (d : FileData)
    (hreal : env.dryRun = false)
    (hdest : fs.lookup r.dest = some d)
    (hsrcne : r.src ≠ [])
    (hsrcdir : r.src ∉ fs.dirs)
    (hpar : ∀ q ∈ (parentOf r.src).inits, fs.isFile q = false) :
    undoStep env fs r =
      (({ fs with dirs := fs.dirs ++ padd fs r.src } : FS).removeFile
        r.dest).addFile r.src d := by
  have hmk : mkdirParents fs (parentOf r.src) =
      some { fs with dirs := fs.dirs ++ padd fs r.src } := by
    unfold mkdirParents padd
    rw [if_neg ?_]
    intro hc
    rw [List.any_eq_true] at hc
    obtain ⟨q, hq, hq2⟩ := hc
    rw [hpar q hq] at hq2
    cases hq2
  have hsrcdir1 :
      ({ fs with dirs := fs.dirs ++ padd fs r.src } : FS).isDir r.src = false := by
    unfold FS.isDir
    rw [Bool.or_eq_false_iff]
    refine ⟨by simp [hsrcne], ?_⟩
    apply contains_false_of_not_mem
    intro hmem
    simp only at hmem
    rcases List.mem_append.1 hmem with hmem | hmem
    · exact hsrcdir hmem
    · exact not_mem_parent_inits r.src hsrcne (mem_padd_sub fs r.src r.src hmem)
  have hren : osRename { fs with dirs := fs.dirs ++ padd fs r.src } r.dest r.src =
      some ((({ fs with dirs := fs.dirs ++ padd fs r.src } : FS).removeFile
        r.dest).addFile r.src d) := by
    unfold osRename
    have hl : ({ fs with dirs := fs.dirs ++ padd fs r.src } : FS).lookup r.dest =
        some d := hdest
    rw [hl, hsrcdir1]
    simp
  unfold undoStep
  rw [if_pos ?_]
  · rw [if_pos (by simp [hreal])]
    simp only [hmk, hren]
  · unfold FS.exists_ FS.isFile
    rw [hdest]
    simp

/-- One restore step when the recorded destination no longer exists: the
record is skipped and the filesystem is untouched. -/
theorem undoStep_skips (env : Env) (fs : FS) (r : MoveRec)
    (h : fs.exists_ r.dest = false) :
    undoStep env fs r = fs := by
  unfold undoStep
  rw [if_neg (by rw [h]; intro hc; cases hc)]

/-- Separation hypotheses under which the restore loop of `undo()` replays a
record list cleanly: sources are nonempty distinct paths, disjoint from the
distinct destinations, no source or destination interferes with the parent
directories another restore creates, and every destination is either still a
regular file or fully absent. -/
structure UndoSep (rs : List MoveRec) (fs : FS) : Prop where
  src_ne_nil : ∀ r ∈ rs, r.src ≠ []
  src_nodup : (rs.map (fun r => r.src)).Nodup
  dest_nodup : (rs.map (fun r => r.dest)).Nodup
  src_ne_dest : ∀ r ∈ rs, ∀ r' ∈ rs, r.src ≠ r'.dest
  par_not_file : ∀ r ∈ rs, ∀ q ∈ (parentOf r.src).inits, fs.isFile q = false
  par_not_src : ∀ r ∈ rs, ∀ q ∈ (parentOf r.src).inits, ∀ r' ∈ rs, q ≠ r'.src
  src_not_dir : ∀ r ∈ rs, r.src ∉ fs.dirs
  src_not_par : ∀ r ∈ rs, ∀ r' ∈ rs, r.src ∉ (parentOf r'.src).inits
  dest_file_or_absent : ∀ r ∈ rs, fs.isFile r.dest = true ∨ fs.exists_ r.dest = false
  dest_not_par : ∀ r ∈ rs, ∀ r' ∈ rs, r.dest ∉ (parentOf r'.src).inits

/-- The state after one successful restore agrees with the old one away from
the record's endpoints. -/
theorem lookup_restore_other (fs : FS) (r : MoveRec) (d : FileData) (p : Path)
    (h1 : p ≠ r.src) (h2 : p ≠ r.dest) :
    ((({ fs with dirs := fs.dirs ++ padd fs r.src } : FS).removeFile
      r.dest).addFile r.src d).lookup p = fs.lookup p := by
  rw [lookup_addFile_other _ _ _ _ h1, lookup_removeFile_other _ _ _ h2]
  rfl

/-- Dropping the head of a record list preserves the separation hypotheses
over the same filesystem. -/
theorem UndoSep.tail (r : MoveRec) (rest : List MoveRec) (fs : FS)
    (h : UndoSep (r :: rest) fs) : UndoSep rest fs := by
  have hm : ∀ x ∈ rest, x ∈ r :: rest := fun x hx => List.mem_cons_of_mem r hx
  exact
    { src_ne_nil := fun x hx => h.src_ne_nil x (hm x hx)
      src_nodup := by
        have := h.src_nodup
        rw [List.map_cons, List.nodup_cons] at this
        exact this.2
      dest_nodup := by
        have := h.dest_nodup
        rw [List.map_cons, List.nodup_cons] at this
        exact this.2
      src_ne_dest := fun x hx y hy => h.src_ne_dest x (hm x hx) y (hm y hy)
      par_not_file := fun x hx => h.par_not_file x (hm x hx)
      par_not_src := fun x hx q hq y hy => h.par_not_src x (hm x hx) q hq y (hm y hy)
      src_not_dir := fun x hx => h.src_not_dir x (hm x hx)
      src_not_par := fun x hx y hy => h.src_not_par x (hm x hx) y (hm y hy)
      dest_file_or_absent := fun x hx => h.dest_file_or_absent x (hm x hx)
      dest_not_par := fun x hx y hy => h.dest_not_par x (hm x hx) y (hm y hy) }

/-- After the head record is successfully restored, the separation
hypotheses keep holding for the remaining records over the new state. -/
theorem undoSep_step (r : MoveRec) (rest : List MoveRec) (fs : FS)
    (d : FileData) (hsep : UndoSep (r :: rest) fs) :
    UndoSep rest
      ((({ fs with dirs := fs.dirs ++ padd fs r.src } : FS).removeFile
        r.dest).addFile r.src d) := by
  have hm : ∀ x ∈ rest, x ∈ r :: rest := fun x hx => List.mem_cons_of_mem r hx
  have hrm : r ∈ r :: rest := List.mem_cons_self r rest
  have htail := hsep.tail
  set fs' : FS :=
    ((({ fs with dirs := fs.dirs ++ padd fs r.src } : FS).removeFile
      r.dest).addFile r.src d) with hfs'
  have hdirs' : ∀ q, q ∈ fs'.dirs → q ∈ fs.dirs ∨ q ∈ (parentOf r.src).inits := by
    intro q hq
    rw [hfs'] at hq
    simp only [FS.addFile, FS.removeFile] at hq
    rcases List.mem_append.1 hq with hq | hq
    · exact Or.inl hq
    · exact Or.inr (mem_padd_sub fs r.src q hq)
  have hsrc_nodup := hsep.src_nodup
  rw [List.map_cons, List.nodup_cons] at hsrc_nodup
  have hdest_nodup := hsep.dest_nodup
  rw [List.map_cons, List.nodup_cons] at hdest_nodup
  refine
    { src_ne_nil := fun x hx => hsep.src_ne_nil x (hm x hx)
      src_nodup := hsrc_nodup.2
      dest_nodup := hdest_nodup.2
      src_ne_dest := fun x hx y hy => hsep.src_ne_dest x (hm x hx) y (hm y hy)
      par_not_file := ?_
      par_not_src := fun x hx q hq y hy => hsep.par_not_src x (hm x hx) q hq y (hm y hy)
      src_not_dir := ?_
      src_not_par := fun x hx y hy => hsep.src_not_par x (hm x hx) y (hm y hy)
      dest_file_or_absent := ?_
      dest_not_par := fun x hx y hy => hsep.dest_not_par x (hm x hx) y (hm y hy) }
  · intro x hx q hq
    have hqsrc : q ≠ r.src := hsep.par_not_src x (hm x hx) q hq r hrm
    by_cases hqdest : q = r.dest
    · unfold FS.isFile
      rw [hfs', hqdest]
      rw [lookup_addFile_other _ _ _ _ (fun hc => hsep.src_ne_dest r hrm r hrm hc.symm)]
      rw [lookup_removeFile_self]
      rfl
    · unfold FS.isFile
      rw [hfs', lookup_restore_other fs r d q hqsrc hqdest]
      exact hsep.par_not_file x (hm x hx) q hq
  · intro x hx hmem
    rcases hdirs' x.src hmem with hc | hc
    · exact hsep.src_not_dir x (hm x hx) hc
    · exact hsep.src_not_par x (hm x hx) r hrm hc
  · intro x hx
    have hxd_ne_src : x.dest ≠ r.src := fun hc => hsep.src_ne_dest r hrm x (hm x hx) hc.symm
    have hxd_ne_dest : x.dest ≠ r.dest := by
      intro hc
      exact hdest_nodup.1 (hc ▸ List.mem_map_of_mem (fun z => z.dest) hx)
    have hleq : fs'.lookup x.dest = fs.lookup x.dest :=
      lookup_restore_other fs r d x.dest hxd_ne_src hxd_ne_dest
    rcases hsep.dest_file_or_absent x (hm x hx) with hf | ha
    · refine Or.inl ?_
      unfold FS.isFile at hf ⊢
      rw [hleq]
      exact hf
    · refine Or.inr ?_
      unfold FS.exists_ at ha ⊢
      rw [Bool.or_eq_false_iff] at ha
      rw [Bool.or_eq_false_iff]
      refine ⟨?_, ?_⟩
      · unfold FS.isFile at ha ⊢
        rw [hleq]
        exact ha.1
      · have hd := ha.2
        unfold FS.isDir at hd ⊢
        rw [Bool.or_eq_false_iff] at hd
        rw [Bool.or_eq_false_iff]
        refine ⟨hd.1, ?_⟩
        apply contains_false_of_not_mem
        intro hmem
        rcases hdirs' x.dest hmem with hc | hc
        · exact not_mem_of_contains_false _ _ hd.2 hc
        · exact hsep.dest_not_par x (hm x hx) r hrm hc

/-- Replaying a separated record list: every record whose destination is
still a file is moved back onto its recorded source path, every record whose
destination is absent is skipped without touching anything, and all other
paths are untouched. -/
theorem undo_fold_restores (env : Env) (hreal : env.dryRun = false) :
    ∀ (rs : List MoveRec) (fs : FS), UndoSep rs fs →
      (∀ p, (∀ r ∈ rs, p ≠ r.src ∧ p ≠ r.dest) →
        (rs.foldl (undoStep env) fs).lookup p = fs.lookup p) ∧
      (∀ r ∈ rs,
        (∀ d, fs.lookup r.dest = some d →
          (rs.foldl (undoStep env) fs).lookup r.src = some d ∧
          (rs.foldl (undoStep env) fs).lookup r.dest = none) ∧
        (fs.exists_ r.dest = false →
          (rs.foldl (undoStep env) fs).lookup r.src = fs.lookup r.src ∧
          (rs.foldl (undoStep env) fs).lookup r.dest = none)) := by
  intro rs
  induction rs with
  | nil =>
    intro fs _
    exact ⟨fun p _ => rfl, fun r hr => absurd hr (List.not_mem_nil r)⟩
  | cons r rest ih =>
    intro fs hsep
    have hrm : r ∈ r :: rest := List.mem_cons_self r rest
    have hm : ∀ x ∈ rest, x ∈ r :: rest := fun x hx => List.mem_cons_of_mem r hx
    have hsrc_nodup := hsep.src_nodup
    rw [List.map_cons, List.nodup_cons] at hsrc_nodup
    have hdest_nodup := hsep.dest_nodup
    rw [List.map_cons, List.nodup_cons] at hdest_nodup
    have hsrc_frame : ∀ x ∈ rest, r.src ≠ x.src ∧ r.src ≠ x.dest := by
      intro x hx
      constructor
      · intro hc
        exact hsrc_nodup.1 (hc ▸ List.mem_map_of_mem (fun z => z.src) hx)
      · exact hsep.src_ne_dest r hrm x (hm x hx)
    have hdest_frame : ∀ x ∈ rest, r.dest ≠ x.src ∧ r.dest ≠ x.dest := by
      intro x hx
      constructor
      · exact fun hc => hsep.src_ne_dest x (hm x hx) r hrm hc.symm
      · intro hc
        exact hdest_nodup.1 (hc ▸ List.mem_map_of_mem (fun z => z.dest) hx)
    rcases hsep.dest_file_or_absent r hrm with hf | ha
    · -- head destination still a file: it is restored
      obtain ⟨d, hd⟩ : ∃ d, fs.lookup r.dest = some d := by
        unfold FS.isFile at hf
        exact Option.isSome_iff_exists.1 hf
      have hstep : undoStep env fs r =
          (({ fs with dirs := fs.dirs ++ padd fs r.src } : FS).removeFile
            r.dest).addFile r.src d :=
        undoStep_restores env fs r d hreal hd (hsep.src_ne_nil r hrm)
          (hsep.src_not_dir r hrm) (hsep.par_not_file r hrm)
      set fs' : FS :=
        (({ fs with dirs := fs.dirs ++ padd fs r.src } : FS).removeFile
          r.dest).addFile r.src d with hfs'
      have hfold : (r :: rest).foldl (undoStep env) fs =
          rest.foldl (undoStep env) fs' := by
        rw [List.foldl_cons, hstep]
      obtain ⟨ihframe, ihrec⟩ := ih fs' (undoSep_step r rest fs d hsep)
      have hsrc' : fs'.lookup r.src = some d := lookup_addFile_self _ _ _
      have hdest' : fs'.lookup r.dest = none := by
        rw [hfs',
          lookup_addFile_other _ _ _ _
            (fun hc => hsep.src_ne_dest r hrm r hrm hc.symm)]
        exact lookup_removeFile_self _ _
      refine ⟨?_, ?_⟩
      · intro p hp
        rw [hfold, ihframe p (fun x hx => hp x (hm x hx))]
        exact lookup_restore_other fs r d p (hp r hrm).1 (hp r hrm).2
      · intro x hx
        rcases List.mem_cons.1 hx with hx | hx
        · subst hx
          refine ⟨?_, ?_⟩
          · intro d' hd'
            rw [hd] at hd'
            injection hd' with hdv
            subst hdv
            rw [hfold]
            constructor
            · rw [ihframe x.src hsrc_frame]
              exact hsrc'
            · rw [ihframe x.dest hdest_frame]
              exact hdest'
          · intro hcontra
            unfold FS.exists_ FS.isFile at hcontra
            rw [hd] at hcontra
            simp at hcontra
        · have hlx : fs'.lookup x.dest = fs.lookup x.dest :=
            lookup_restore_other fs r d x.dest
              (fun hc => hsep.src_ne_dest r hrm x (hm x hx) hc.symm)
              (fun hc => hdest_nodup.1
                (hc ▸ List.mem_map_of_mem (fun z => z.dest) hx))
          have hlsx : fs'.lookup x.src = fs.lookup x.src :=
            lookup_restore_other fs r d x.src
              (fun hc => hsrc_nodup.1
                (hc ▸ List.mem_map_of_mem (fun z => z.src) hx))
              (fun hc => hsep.src_ne_dest x (hm x hx) r hrm hc)
          refine ⟨?_, ?_⟩
          · intro d' hd'
            rw [hfold]
            exact (ihrec x hx).1 d' (hlx.trans hd' ▸ (hlx ▸ hd' : fs'.lookup x.dest = some d'))
          · intro hax
            have hax' : fs'.exists_ x.dest = false := by
              unfold FS.exists_ at hax ⊢
              rw [Bool.or_eq_false_iff] at hax
              rw [Bool.or_eq_false_iff]
              refine ⟨?_, ?_⟩
              · unfold FS.isFile at hax ⊢
                rw [hlx]
                exact hax.1
              · have hdd := hax.2
                unfold FS.isDir at hdd ⊢
                rw [Bool.or_eq_false_iff] at hdd
                rw [Bool.or_eq_false_iff]
                refine ⟨hdd.1, ?_⟩
                apply contains_false_of_not_mem
                intro hmem
                rw [hfs'] at hmem
                simp only [FS.addFile, FS.removeFile] at hmem
                rcases List.mem_append.1 hmem with hc | hc
                · exact not_mem_of_contains_false _ _ hdd.2 hc
                · exact hsep.dest_not_par x (hm x hx) r hrm
                    (mem_padd_sub fs r.src x.dest hc)
            obtain ⟨h1, h2⟩ := (ihrec x hx).2 hax'
            rw [hfold]
            exact ⟨h1.trans hlsx, h2⟩
    · -- head destination absent: the record is skipped
      have hstep : undoStep env fs r = fs := undoStep_skips env fs r ha
      have hfold : (r :: rest).foldl (undoStep env) fs =
          rest.foldl (undoStep env) fs := by
        rw [List.foldl_cons, hstep]
      obtain ⟨ihframe, ihrec⟩ := ih fs hsep.tail
      have hlnone : fs.lookup r.dest = none := by
        unfold FS.exists_ at ha
        rw [Bool.or_eq_false_iff] at ha
        have := ha.1
        unfold FS.isFile at this
        exact Option.not_isSome_iff_eq_none.1 (by rw [this]; intro hc; cases hc)
      refine ⟨?_, ?_⟩
      · intro p hp
        rw [hfold]
        exact ihframe p (fun x hx => hp x (hm x hx))
      · intro x hx
        rcases List.mem_cons.1 hx with hx | hx
        · subst hx
          refine ⟨?_, ?_⟩
          · intro d' hd'
            rw [hlnone] at hd'
            cases hd'
          · intro _
            rw [hfold]
            constructor
            · exact ihframe x.src hsrc_frame
            · rw [ihframe x.dest hdest_frame]
              exact hlnone
        · exact ⟨fun d' hd' => hfold ▸ (ihrec x hx).1 d' hd',
            fun hax => hfold ▸ (ihrec x hx).2 hax⟩

/-- The separation hypotheses are stable under reversing the record list. -/
theorem UndoSep.reverse (rs : List MoveRec) (fs : FS) (h : UndoSep rs fs) :
    UndoSep rs.reverse fs := by
  have hm : ∀ x ∈ rs.reverse, x ∈ rs := fun x hx => List.mem_reverse.1 hx
  exact
    { src_ne_nil := fun x hx => h.src_ne_nil x (hm x hx)
      src_nodup := by
        rw [List.map_reverse, List.nodup_reverse]
        exact h.src_nodup
      dest_nodup := by
        rw [List.map_reverse, List.nodup_reverse]
        exact h.dest_nodup
      src_ne_dest := fun x hx y hy => h.src_ne_dest x (hm x hx) y (hm y hy)
      par_not_file := fun x hx => h.par_not_file x (hm x hx)
      par_not_src := fun x hx q hq y hy => h.par_not_src x (hm x hx) q hq y (hm y hy)
      src_not_dir := fun x hx => h.src_not_dir x (hm x hx)
      src_not_par := fun x hx y hy => h.src_not_par x (hm x hx) y (hm y hy)
      dest_file_or_absent := fun x hx => h.dest_file_or_absent x (hm x hx)
      dest_not_par := fun x hx y hy => h.dest_not_par x (hm x hx) y (hm y hy) }

/-! Claim C6: behavior of `undo()` over the most recent batch. -/

/-- C6: real-mode `undo()` on a nonempty history pops exactly the most recent
batch (the truncated history is persisted), replays that batch's records in
reverse order, moving every record whose recorded destination still exists
back onto its recorded original path (parent directories being created as
needed by the replay) and skipping, non-fatally and without any change, every
record whose destination is missing; paths outside the batch are untouched.
With a missing history file, a corrupt one, or an empty history, `undo()`
changes nothing at all. -/
theorem undo_pops_and_restores (env : Env) (st : St) (h : List Batch)
    (b : Batch)
    (hreal : env.dryRun = false)
    (hh : st.hist = .valid (h ++ [b]))
    (hsep : UndoSep b.moves st.fs) :
    (undo env st).hist = .valid h ∧
    (∀ r ∈ b.moves,
      (∀ d, st.fs.lookup r.dest = some d →
        (undo env st).fs.lookup r.src = some d ∧
        (undo env st).fs.lookup r.dest = none) ∧
      (st.fs.exists_ r.dest = false →
        (undo env st).fs.lookup r.src = st.fs.lookup r.src ∧
        (undo env st).fs.lookup r.dest = none)) ∧
    (∀ p, (∀ r ∈ b.moves, p ≠ r.src ∧ p ≠ r.dest) →
      (undo env st).fs.lookup p = st.fs.lookup p) ∧
    (∀ (env' : Env) (st' : St),
      st'.hist = .missing ∨ st'.hist = .corrupt ∨ st'.hist = .valid [] →
      undo env' st' = st') := by
  have hun := undo_valid_nonempty env st h b hh
  obtain ⟨hframe, hrec⟩ :=
    undo_fold_restores env hreal b.moves.reverse st.fs (hsep.reverse)
  rw [hun]
  simp only [hreal, Bool.false_eq_true, not_false_eq_true, if_true]
  refine ⟨trivial, ?_, ?_, fun env' st' hhist => undo_no_history env' st' hhist⟩
  · intro r hr
    have hr' : r ∈ b.moves.reverse := List.mem_reverse.2 hr
    refine ⟨?_, ?_⟩
    · intro d hd
      obtain ⟨h1, h2⟩ := (hrec r hr').1 d hd
      exact ⟨by rw [lookup_cleanup]; exact h1, by rw [lookup_cleanup]; exact h2⟩
    · intro ha
      obtain ⟨h1, h2⟩ := (hrec r hr').2 ha
      exact ⟨by rw [lookup_cleanup]; exact h1, by rw [lookup_cleanup]; exact h2⟩
  · intro p hp
    rw [lookup_cleanup]
    exact hframe p (fun x hx => hp x (List.mem_reverse.1 hx))

/-- State for the concrete undo run: one restorable record and one whose
destination has since disappeared, plus an unrelated bystander file. -/
def undoBatchSt : St :=
  { fs := { files := [(["Documents", "a.txt"], ⟨"A", 1⟩),
                      (["keep.md"], ⟨"K", 4⟩)],
            dirs := [["Documents"]] },
    hist := .valid [⟨9, [⟨["a.txt"], ["Documents", "a.txt"]⟩,
                         ⟨["b.txt"], ["Documents", "b.txt"]⟩]⟩] }

/-- Witness for `undo_pops_and_restores` at a concrete input. -/
theorem undo_pops_and_restores_witness :
    (undo dedupEnv undoBatchSt).hist = .valid [] ∧
    (undo dedupEnv undoBatchSt).fs.lookup ["a.txt"] = some ⟨"A", 1⟩ ∧
    (undo dedupEnv undoBatchSt).fs.lookup ["Documents", "a.txt"] = none ∧
    (undo dedupEnv undoBatchSt).fs.lookup ["b.txt"] = none ∧
    (undo dedupEnv undoBatchSt).fs.lookup ["keep.md"] = some ⟨"K", 4⟩ := by
  obtain ⟨hh, hrec, hframe, _⟩ :=
    undo_pops_and_restores dedupEnv undoBatchSt []
      ⟨9, [⟨["a.txt"], ["Documents", "a.txt"]⟩,
           ⟨["b.txt"], ["Documents", "b.txt"]⟩]⟩
      rfl rfl
      ⟨by decide, by decide, by decide, by decide, by decide, by decide,
       by decide, by decide, by decide, by decide⟩
  refine ⟨hh, ?_, ?_, ?_, ?_⟩
  · exact ((hrec ⟨["a.txt"], ["Documents", "a.txt"]⟩ (by decide)).1
      ⟨"A", 1⟩ (by decide)).1
  · exact ((hrec ⟨["a.txt"], ["Documents", "a.txt"]⟩ (by decide)).1
      ⟨"A", 1⟩ (by decide)).2
  · exact ((hrec ⟨["b.txt"], ["Documents", "b.txt"]⟩ (by decide)).2
      (by decide)).1.trans (by decide)
  · exact (hframe ["keep.md"] (by decide)).trans (by decide)

/-! Helpers for the fresh-folder round trip. -/

/-- A successful lookup locates an actual entry. -/
theorem lookupIn_mem (l : List (Path × FileData)) (p : Path) (d : FileData)
    (h : lookupIn l p = some d) : (p, d) ∈ l := by
  induction l with
  | nil => cases h
  | cons e l ih =>
    simp only [lookupIn] at h
    by_cases hep : e.1 = p
    · rw [if_pos hep] at h
      injection h with hv
      have he : e = (p, d) := Prod.ext_iff.2 ⟨hep, hv⟩
      exact List.mem_cons.2 (Or.inl he.symm)
    · rw [if_neg hep] at h
      exact List.mem_cons_of_mem e (ih h)

/-- A key absent from the entries looks up to nothing. -/
theorem lookupIn_none_of_not_mem (l : List (Path × FileData)) (p : Path)
    (h : p ∉ l.map (fun e => e.1)) : lookupIn l p = none := by
  induction l with
  | nil => rfl
  | cons e l ih =>
    simp only [lookupIn]
    rw [List.map_cons] at h
    rw [if_neg (fun hc => h (List.mem_cons.2 (Or.inl hc.symm)))]
    exact ih (fun hc => h (List.mem_cons_of_mem e.1 hc))

/-- Evaluation of `safe_move` into a folder that does not exist yet: the
folder is created and the file moves to `dest_folder/<name>` unchanged. -/
theorem safe_move_fresh (env : Env) (fs : FS) (nm F : String) (d : FileData)
    (hreal : env.dryRun = false)
    (hfresh : fs.exists_ [F] = false)
    (hnofile : fs.isFile [F, nm] = false)
    (hnodir : [F, nm] ∉ fs.dirs)
    (hsrc : fs.lookup [nm] = some d)
    (hnv : env.oracle.vanished [nm] = false) :
    safe_move env fs [nm] [F] =
      (some [F, nm],
       (({ fs with dirs := fs.dirs ++ [[F]] } : FS).removeFile [nm]).addFile
         [F, nm] d) := by
  have hex0 : ({ fs with dirs := fs.dirs ++ [[F]] } : FS).exists_ [F, nm] = false := by
    unfold FS.exists_ FS.isDir
    rw [Bool.or_eq_false_iff]
    constructor
    · exact hnofile
    · rw [Bool.or_eq_false_iff]
      refine ⟨by simp, ?_⟩
      apply contains_false_of_not_mem
      intro hmem
      simp only at hmem
      rcases List.mem_append.1 hmem with hc | hc
      · exact hnodir hc
      · rw [List.mem_singleton] at hc
        cases hc
  have hpdir : ({ fs with dirs := fs.dirs ++ [[F]] } : FS).isDir [F] = true := by
    unfold FS.isDir
    rw [Bool.or_eq_true]
    refine Or.inr ?_
    rw [List.contains_iff_exists_mem_beq]
    exact ⟨[F], List.mem_append.2 (Or.inr (List.mem_singleton.2 rfl)), by simp⟩
  have hmove : osMove env.oracle { fs with dirs := fs.dirs ++ [[F]] } [nm]
      ([F] ++ [nm]) =
      some ((({ fs with dirs := fs.dirs ++ [[F]] } : FS).removeFile
        [nm]).addFile [F, nm] d) := by
    unfold osMove
    rw [if_neg (by simp [hnv])]
    have hl : ({ fs with dirs := fs.dirs ++ [[F]] } : FS).lookup [nm] = some d := hsrc
    rw [hl]
    have h1 : ({ fs with dirs := fs.dirs ++ [[F]] } : FS).isDir
        (parentOf ([F] ++ [nm])) = true := hpdir
    have h2 : ({ fs with dirs := fs.dirs ++ [[F]] } : FS).isDir
        ([F] ++ [nm]) = false := by
      unfold FS.exists_ at hex0
      rw [Bool.or_eq_false_iff] at hex0
      exact hex0.2
    rw [h1, h2]
    simp
  have hex0' : ({ fs with dirs := fs.dirs ++ [[F]] } : FS).exists_
      ([F] ++ [nm]) = false := hex0
  simp only [safe_move, nameOf_singleton, hfresh, hreal]
  simp only [Bool.false_eq_true, not_false_eq_true, true_and, if_true,
    ite_false, if_false]
  rw [if_neg (by rw [hex0']; intro hc; cases hc)]
  rw [hmove]
  rfl

/-- A key that occurs in a duplicate-free file list looks up to its data. -/
theorem lookupIn_of_mem_nodup (l : List (Path × FileData)) (p : Path)
    (dd : FileData) (hnd : (l.map (fun e => e.1)).Nodup)
    (hm : (p, dd) ∈ l) : lookupIn l p = some dd := by
  induction l with
  | nil => cases hm
  | cons e l ih =>
    rw [List.map_cons, List.nodup_cons] at hnd
    rcases List.mem_cons.1 hm with hm | hm
    · simp only [lookupIn]
      rw [if_pos (by rw [← hm])]
      rw [← hm]
    · simp only [lookupIn]
      by_cases hep : e.1 = p
      · exact absurd (hep ▸ List.mem_map_of_mem (fun z => z.1) hm) hnd.1
      · rw [if_neg hep]
        exact ih hnd.2 hm

/-! Claim C2 (amended): the fresh-file round trip. -/

/-- C2 amended: organizing a fresh file into a not-yet-existing target folder
`F` and then undoing restores the file to its original path with its content
(hence its digest) intact, and removes `F` in the post-undo cleanup —
provided `F` is not a hidden name (one starting with "."), since
`_cleanup_empty_folders` skips hidden folders.  Stated for a directory in
which the fresh file is the only entry surviving the scan filters. -/
theorem organize_then_undo_round_trip (env : Env) (st : St) (nm F : String)
    (d : FileData) (l₁ l₂ : List (Path × FileData))
    (hreal : env.dryRun = false)
    (hWf : st.fs.Wf)
    (hsplit : st.fs.rootFiles = l₁ ++ ([nm], d) :: l₂)
    (hskip₁ : ∀ e ∈ l₁, skippedName env (nameOf e.1) = true)
    (hskip₂ : ∀ e ∈ l₂, skippedName env (nameOf e.1) = true)
    (hnoskip : skippedName env nm = false)
    (hT : get_target_folder env st.fs [nm] = .ok F)
    (hF : F ≠ "")
    (hHid : hiddenName [F] = false)
    (hfresh : st.fs.exists_ [F] = false)
    (hnv : env.oracle.vanished [nm] = false) :
    ∃ st₁ : St,
      organize env st = .ok (1, st₁) ∧
      (undo env st₁).fs.lookup [nm] = some d ∧
      [F] ∉ (undo env st₁).fs.dirs := by
  obtain ⟨hnodupKeys, hdirsNodup, hnonil, hrootdir, hfd, hparsF, hparsD⟩ := hWf
  have hmemroot : ([nm], d) ∈ st.fs.rootFiles := by
    rw [hsplit]
    exact List.mem_append.2 (Or.inr (List.mem_cons_self _ _))
  have hmemf : ([nm], d) ∈ st.fs.files := (List.mem_filter.1 hmemroot).1
  have hroot : st.fs.rootNonempty = true := rootNonempty_of_mem st.fs _ hmemroot
  have hsrc : st.fs.lookup [nm] = some d :=
    lookupIn_of_mem_nodup st.fs.files [nm] d hnodupKeys hmemf
  have hfreshFile : st.fs.isFile [F] = false := by
    unfold FS.exists_ at hfresh
    exact (Bool.or_eq_false_iff.1 hfresh).1
  have hfreshDir : [F] ∉ st.fs.dirs := by
    unfold FS.exists_ FS.isDir at hfresh
    have := (Bool.or_eq_false_iff.1 (Bool.or_eq_false_iff.1 hfresh).2).2
    exact not_mem_of_contains_false _ _ this
  have hFinits : ([F] : Path) ∈ ([F, nm] : Path).inits :=
    (List.mem_inits _ _).2 ⟨[nm], rfl⟩
  have hnofile : st.fs.isFile [F, nm] = false := by
    cases hlf : st.fs.isFile [F, nm] with
    | false => rfl
    | true =>
      unfold FS.isFile at hlf
      obtain ⟨dd, hdd⟩ := Option.isSome_iff_exists.1 hlf
      have hmem := lookupIn_mem st.fs.files [F, nm] dd hdd
      have := hparsF ([F, nm], dd) hmem [F] hFinits (by simp) (by simp)
      exact absurd this hfreshDir
  have hnodirFn : ([F, nm] : Path) ∉ st.fs.dirs := by
    intro hmem
    exact hfreshDir (hparsD [F, nm] hmem [F] hFinits (by simp) (by simp))
  have hsm := safe_move_fresh env st.fs nm F d hreal hfresh hnofile hnodirFn
    hsrc hnv
  set fs₂ : FS :=
    (({ st.fs with dirs := st.fs.dirs ++ [[F]] } : FS).removeFile [nm]).addFile
      [F, nm] d with hfs₂
  have hstep : orgStep env ⟨0, [], st.fs⟩ ([nm], d) =
      .ok ⟨1, [⟨[nm], [F, nm]⟩], fs₂⟩ := by
    simp [orgStep, nameOf_singleton, hnoskip, hT, hF, hsm]
  have hfold : st.fs.rootFiles.foldlM (orgStep env) ⟨0, [], st.fs⟩ =
      .ok ⟨1, [⟨[nm], [F, nm]⟩], fs₂⟩ := by
    rw [hsplit]
    exact orgFold_single env l₁ l₂ _ _ _ hskip₁ hskip₂ hstep
  have horg : organize env st =
      .ok (1, ⟨cleanup_empty_folders fs₂,
        save_history st.hist env [⟨[nm], [F, nm]⟩]⟩) := by
    simp [organize, hroot, hfold, hreal]
  set st₁ : St := ⟨cleanup_empty_folders fs₂,
    save_history st.hist env [⟨[nm], [F, nm]⟩]⟩ with hst₁
  refine ⟨st₁, horg, ?_, ?_⟩
  all_goals {
    have hfs₂dirs : fs₂.dirs = st.fs.dirs ++ [[F]] := rfl
    have hmemf₂ : (([F, nm] : Path), d) ∈ fs₂.files := by
      rw [hfs₂]
      simp only [FS.addFile, FS.removeFile]
      exact List.mem_append.2 (Or.inr (List.mem_singleton.2 rfl))
    have hFfs₂ : ([F] : Path) ∈ fs₂.dirs := by
      rw [hfs₂dirs]
      exact List.mem_append.2 (Or.inr (List.mem_singleton.2 rfl))
    have hFst₁ : ([F] : Path) ∈ st₁.fs.dirs := by
      rw [hst₁]
      exact cleanup_keeps_nonempty fs₂ [F] hFfs₂
        ⟨([F, nm], d), hmemf₂, by simp, by simp⟩
    have hdest₁ : st₁.fs.lookup [F, nm] = some d := by
      rw [hst₁]
      show (cleanup_empty_folders fs₂).lookup [F, nm] = some d
      rw [lookup_cleanup, hfs₂]
      exact lookup_addFile_self _ _ _
    have hsub₁ : ∀ q ∈ st₁.fs.dirs, q ∈ st.fs.dirs ++ [[F]] := by
      intro q hq
      rw [hst₁] at hq
      have := cleanup_dirs_subset fs₂ q hq
      rw [hfs₂dirs] at this
      exact this
    have hfiles₁ : st₁.fs.files = fs₂.files := by
      rw [hst₁]
      exact cleanup_files fs₂
    have hmemfiles₂ : ∀ e ∈ fs₂.files,
        e = (([F, nm] : Path), d) ∨ (e ∈ st.fs.files ∧ e.1 ≠ [nm]) := by
      intro e he
      rw [hfs₂] at he
      simp only [FS.addFile, FS.removeFile] at he
      rcases List.mem_append.1 he with he | he
      · have h1 := List.mem_filter.1 he
        have h2 := List.mem_filter.1 h1.1
        refine Or.inr ⟨h2.1, ?_⟩
        have := h2.2
        simp only [decide_not, Bool.not_eq_eq_eq_not, Bool.not_true,
          decide_eq_false_iff_not] at this
        exact this
      · exact Or.inl (List.mem_singleton.1 he)
    have hnmF : nm ≠ F := by
      intro hc
      unfold FS.isFile at hfreshFile
      rw [← hc] at hfreshFile
      rw [hsrc] at hfreshFile
      cases hfreshFile
    have hsrcdir₁ : [nm] ∉ st₁.fs.dirs := by
      intro hmem
      rcases List.mem_append.1 (hsub₁ [nm] hmem) with hc | hc
      · exact hfd ([nm], d) hmemf hc
      · rw [List.mem_singleton] at hc
        simp only [List.cons.injEq, and_true] at hc
        exact hnmF hc
    have hpar₁ : ∀ q ∈ (parentOf ([nm] : Path)).inits, st₁.fs.isFile q = false := by
      intro q hq
      have hq0 : q = ([] : Path) := by
        have := (List.mem_inits _ _).1 hq
        have h0 : parentOf ([nm] : Path) = [] := rfl
        rw [h0] at this
        exact List.prefix_nil.1 this
      subst hq0
      unfold FS.isFile FS.lookup
      rw [hfiles₁]
      rw [lookupIn_none_of_not_mem]
      · rfl
      · intro hmem
        rw [List.mem_map] at hmem
        obtain ⟨e, he, he0⟩ := hmem
        rcases hmemfiles₂ e he with hc | hc
        · rw [hc] at he0
          cases he0
        · exact hnonil e hc.1 he0
    have hist₁eq : st₁.hist = .valid
        ((loadHistory st.hist).drop ((loadHistory st.hist).length + 1 - 10) ++
          [⟨env.now, [⟨[nm], [F, nm]⟩]⟩]) := by
      rw [hst₁]
      show save_history st.hist env [⟨[nm], [F, nm]⟩] = _
      simp only [save_history]
      rw [List.length_append]
      simp only [List.length_cons, List.length_nil]
      rw [List.drop_append_of_le_length (by omega)]
    have hun := undo_valid_nonempty env st₁
      ((loadHistory st.hist).drop ((loadHistory st.hist).length + 1 - 10))
      ⟨env.now, [⟨[nm], [F, nm]⟩]⟩ hist₁eq
    have hpadd : padd st₁.fs ([nm] : Path) = [] := rfl
    have hstep₂ : undoStep env st₁.fs ⟨[nm], [F, nm]⟩ =
        (({ st₁.fs with dirs := st₁.fs.dirs ++ padd st₁.fs [nm] } : FS).removeFile
          [F, nm]).addFile [nm] d :=
      undoStep_restores env st₁.fs ⟨[nm], [F, nm]⟩ d hreal hdest₁ (by simp)
        hsrcdir₁ hpar₁
    set fs₃ : FS :=
      (({ st₁.fs with dirs := st₁.fs.dirs ++ padd st₁.fs [nm] } : FS).removeFile
        [F, nm]).addFile [nm] d with hfs₃
    have hundo : undo env st₁ = ⟨cleanup_empty_folders fs₃,
        .valid ((loadHistory st.hist).drop
          ((loadHistory st.hist).length + 1 - 10))⟩ := by
      rw [hun]
      simp only [hreal, Bool.false_eq_true, not_false_eq_true, if_true]
      have : (([⟨[nm], [F, nm]⟩] : List MoveRec).reverse).foldl (undoStep env)
          st₁.fs = fs₃ := by
        rw [List.reverse_singleton, List.foldl_cons, List.foldl_nil, hstep₂]
      rw [this]
    have hfs₃dirs : ∀ q ∈ fs₃.dirs, q ∈ st₁.fs.dirs := by
      intro q hq
      rw [hfs₃] at hq
      simp only [FS.addFile, FS.removeFile, hpadd] at hq
      rcases List.mem_append.1 hq with hq | hq
      · exact hq
      · cases hq
    have hmemfiles₃ : ∀ e ∈ fs₃.files,
        e = (([nm] : Path), d) ∨ (e ∈ st.fs.files ∧ e.1 ≠ [nm] ∧ e.1 ≠ [F, nm]) := by
      intro e he
      rw [hfs₃] at he
      simp only [FS.addFile, FS.removeFile] at he
      rcases List.mem_append.1 he with he | he
      · have h1 := List.mem_filter.1 he
        have h2 := List.mem_filter.1 h1.1
        have hne2 : e.1 ≠ [F, nm] := by
          have := h2.2
          simp only [decide_not, Bool.not_eq_eq_eq_not, Bool.not_true,
            decide_eq_false_iff_not] at this
          exact this
        have he' : e ∈ st₁.fs.files := h2.1
        rw [hfiles₁] at he'
        rcases hmemfiles₂ e he' with hc | hc
        · exact absurd (by rw [hc]) hne2
        · exact Or.inr ⟨hc.1, hc.2, hne2⟩
      · exact Or.inl (List.mem_singleton.1 he)
    first
    | -- conclusion: the file is back at its original path with its content
      (rw [hundo]
       show (cleanup_empty_folders fs₃).lookup [nm] = some d
       rw [lookup_cleanup, hfs₃]
       exact lookup_addFile_self _ _ _)
    | -- conclusion: folder F is gone after the post-undo cleanup
      (rw [hundo]
       show ([F] : Path) ∉ (cleanup_empty_folders fs₃).dirs
       apply cleanup_removes_empty fs₃ [F] ?_ (by simp) hHid ?_ ?_
       · rw [hfs₃]
         simp only [FS.addFile, FS.removeFile, hpadd]
         exact List.mem_append.2 (Or.inl hFst₁)
       · intro e he hcon
         rcases hmemfiles₃ e he with hc | hc
         · rw [hc] at hcon
           have hpre := (List.isPrefixOf_iff_prefix).1 hcon.2
           have hlen := List.IsPrefix.length_le hpre
           simp only [List.length_cons, List.length_nil] at hlen
           have heq := List.IsPrefix.eq_of_length hpre (by simp)
           exact hcon.1 heq
         · have hpre := (List.isPrefixOf_iff_prefix).1 hcon.2
           have hinits : ([F] : Path) ∈ e.1.inits := (List.mem_inits _ _).2 hpre
           exact hfreshDir (hparsF e hc.1 [F] hinits (fun hceq => hcon.1 hceq) (by simp))
       · intro q hq hcon
         rcases List.mem_append.1 (hsub₁ q (hfs₃dirs q hq)) with hc | hc
         · have hpre := (List.isPrefixOf_iff_prefix).1 hcon.2
           have hinits : ([F] : Path) ∈ q.inits := (List.mem_inits _ _).2 hpre
           exact hfreshDir (hparsD q hc [F] hinits (fun hceq => hcon.1 hceq) (by simp))
         · rw [List.mem_singleton] at hc
           exact hcon.1 hc.symm)
  }

/-- Fresh directory used by the concrete round-trip run. -/
def rtSt : St :=
  { fs := { files := [(["notes.txt"], ⟨"hello", 3⟩)], dirs := [] },
    hist := .missing }

/-- Witness for `organize_then_undo_round_trip` at a concrete input. -/
theorem organize_then_undo_round_trip_witness :
    ∃ st₁ : St,
      organize dedupEnv rtSt = .ok (1, st₁) ∧
      (undo dedupEnv st₁).fs.lookup ["notes.txt"] = some ⟨"hello", 3⟩ ∧
      ["Documents"] ∉ (undo dedupEnv st₁).fs.dirs :=
  organize_then_undo_round_trip dedupEnv rtSt "notes.txt" "Documents"
    ⟨"hello", 3⟩ [] [] rfl (by decide) (by decide)
    (by intro e he; cases he) (by intro e he; cases he)
    (by decide) (by decide) (by decide) (by decide) (by decide) rfl

/-- Environment whose only mapping files `txt` into a hidden folder name. -/
def hidEnv : Env :=
  { mappings := [(".H", ["txt"])], ignore := [], strategy := "extension",
    dryRun := false, formatDate := fun _ => "2024-01", now := 0,
    oracle := .benign }

/-- Fresh directory with a single text file, to be filed under `.H`. -/
def hidSt : St :=
  { fs := { files := [(["a.txt"], ⟨"c", 0⟩)], dirs := [] },
    hist := .missing }

/-- C2 counterexample: with a configuration that maps into the hidden folder
name `.H`, the fresh file `a.txt` is organized into the freshly created `.H`
and restored by `undo()`, but `.H` is NOT absent afterwards — the post-undo
cleanup skips folders whose name starts with ".", so the claim's "folder F is
absent afterwards" fails as stated. -/
theorem round_trip_hidden_folder_cex :
    (organize hidEnv hidSt).toOption.map (fun r => r.1) = some 1 ∧
    (organize hidEnv hidSt).toOption.map
      (fun r => (undo hidEnv r.2).fs.lookup ["a.txt"]) = some (some ⟨"c", 0⟩) ∧
    (organize hidEnv hidSt).toOption.map
      (fun r => (undo hidEnv r.2).fs.dirs.contains [".H"]) = some true := by
  refine ⟨by decide, by decide, by decide⟩

/-! Claim C9: rerunning `organize()`. -/

/-- Environment whose mapping sends `txt` files into a folder named `T`. -/
def blockEnv : Env :=
  { mappings := [("T", ["txt"])], ignore := [], strategy := "extension",
    dryRun := false, formatDate := fun _ => "2024-01", now := 0,
    oracle := .benign }

/-- Directory holding `a.txt` (target folder `T`) and a file literally named
`T`, listed after it. -/
def blockSt : St :=
  { fs := { files := [(["a.txt"], ⟨"a", 0⟩), (["T"], ⟨"t", 0⟩)], dirs := [] },
    hist := .missing }

/-- C9 counterexample: the first run fails to move `a.txt` (its target
folder `T` is blocked by the regular file `T`, so `shutil.move` raises and
the file is skipped) yet moves the file `T` itself into `Others`; the
immediately following run, with no files added or modified in between, now
finds `T` unblocked, creates it and moves `a.txt` — performing 1 move and
returning 1, not 0. -/
theorem organize_second_run_moves_cex :
    (organize blockEnv blockSt).toOption.map (fun r => r.1) = some 1 ∧
    (organize blockEnv blockSt).toOption.bind
      (fun r => (organize blockEnv r.2).toOption.map (fun r2 => r2.1)) =
      some 1 ∧
    (organize blockEnv blockSt).toOption.map
      (fun r => r.2.fs.lookup ["a.txt"]) = some (some ⟨"a", 0⟩) ∧
    (organize blockEnv blockSt).toOption.bind
      (fun r => (organize blockEnv r.2).toOption.map
        (fun r2 => r2.2.fs.lookup ["T", "a.txt"])) = some (some ⟨"a", 0⟩) := by
  refine ⟨by decide, by decide, by decide, by decide⟩

/-- A key that occurs among the entries looks up to something. -/
theorem lookupIn_isSome_of_mem (l : List (Path × FileData)) (p : Path)
    (h : p ∈ l.map (fun e => e.1)) : (lookupIn l p).isSome = true := by
  induction l with
  | nil => cases h
  | cons e l ih =>
    rw [List.map_cons] at h
    simp only [lookupIn]
    by_cases hep : e.1 = p
    · rw [if_pos hep]
      rfl
    · rw [if_neg hep]
      rcases List.mem_cons.1 h with h | h
      · exact absurd h.symm hep
      · exact ih h

/-- Removing a file keeps the file keys duplicate-free. -/
theorem nodup_removeFile (fs : FS) (p : Path)
    (h : (fs.files.map (fun e => e.1)).Nodup) :
    ((fs.removeFile p).files.map (fun e => e.1)).Nodup := by
  unfold FS.removeFile
  exact List.Nodup.sublist
    (List.Sublist.map (fun e => e.1) (List.filter_sublist fs.files)) h

/-- Adding a file keeps the file keys duplicate-free. -/
theorem nodup_addFile (fs : FS) (p : Path) (d : FileData)
    (h : (fs.files.map (fun e => e.1)).Nodup) :
    ((fs.addFile p d).files.map (fun e => e.1)).Nodup := by
  unfold FS.addFile
  rw [List.map_append]
  rw [List.nodup_append]
  refine ⟨nodup_removeFile fs p h, List.nodup_singleton p, ?_⟩
  intro q hq
  simp only [FS.removeFile] at hq
  rw [List.mem_map] at hq
  obtain ⟨e, he, rfl⟩ := hq
  have := (List.mem_filter.1 he).2
  simp only [decide_not, Bool.not_eq_eq_eq_not, Bool.not_true,
    decide_eq_false_iff_not] at this
  simp only [List.map_cons, List.map_nil, List.mem_singleton]
  exact fun hc => this hc

/-- The filtered entries never contain the filtered key. -/
theorem not_mem_keys_removeFile (fs : FS) (p : Path) :
    p ∉ (fs.removeFile p).files.map (fun e => e.1) := by
  intro hmem
  rw [List.mem_map] at hmem
  obtain ⟨e, he, hkey⟩ := hmem
  have h2 := (List.mem_filter.1 he).2
  simp only [decide_not, Bool.not_eq_eq_eq_not, Bool.not_true,
    decide_eq_false_iff_not] at h2
  exact h2 hkey

/-- Classification gives the same folder over two states that agree on the
file, and always succeeds when the file is readable and has not vanished. -/
theorem get_target_folder_agree (env : Env) (fs1 fs2 : FS) (p : Path)
    (dd : FileData)
    (hnv : env.oracle.vanished p = false)
    (h1 : fs1.lookup p = some dd) (h2 : fs2.lookup p = some dd) :
    ∃ t, get_target_folder env fs1 p = .ok t ∧
      get_target_folder env fs2 p = .ok t := by
  unfold get_target_folder get_date_folder
  by_cases hs : env.strategy = "date"
  · rw [if_pos hs, if_pos hs, if_neg (by rw [hnv]; intro hc; cases hc),
      if_neg (by rw [hnv]; intro hc; cases hc), h1, h2]
    exact ⟨env.formatDate dd.mtime, rfl, rfl⟩
  · rw [if_neg hs, if_neg hs]
    exact ⟨_, rfl, rfl⟩

/-- Effect of `safe_move` on the files of the tree during a scan over a
readable depth-1 source whose target folder name is not blocked by a regular
file: whatever branch is taken (delete as duplicate, move with a suffixed
name, or plain move), the source leaves the root, every other root file stays
put, every new file sits at depth 2, and key uniqueness is preserved. -/
theorem safe_move_scan_effect (env : Env) (fs : FS) (nm t : String)
    (d : FileData)
    (hreal : env.dryRun = false)
    (hnv : ∀ p, env.oracle.vanished p = false)
    (hsrc : fs.lookup [nm] = some d)
    (hnoblock : fs.isFile [t] = false) :
    (∀ e ∈ (safe_move env fs [nm] [t]).2.files,
      (e ∈ fs.files ∧ e.1 ≠ [nm]) ∨ e.1.length = 2) ∧
    ([nm] : Path) ∉ (safe_move env fs [nm] [t]).2.files.map (fun e => e.1) ∧
    (∀ e ∈ fs.files, e.1 ≠ [nm] → e.1.length = 1 →
      e ∈ (safe_move env fs [nm] [t]).2.files) ∧
    ((fs.files.map (fun e => e.1)).Nodup →
      ((safe_move env fs [nm] [t]).2.files.map (fun e => e.1)).Nodup) := by
  have hshape : ∃ fs0 : FS, fs0.files = fs.files ∧
      ((safe_move env fs [nm] [t]).2 = fs0.removeFile [nm] ∨
       ∃ (x : String) (d' : FileData),
         (safe_move env fs [nm] [t]).2 =
           (fs0.removeFile [nm]).addFile ([t] ++ [x]) d') := by
    unfold safe_move
    rw [nameOf_singleton]
    set fs0 : FS :=
      if ¬ fs.exists_ [t] = true ∧ ¬ env.dryRun = true then
        { fs with dirs := fs.dirs ++ [[t]] }
      else fs with hfs0
    have hfiles0 : fs0.files = fs.files := by
      rw [hfs0]
      split <;> rfl
    have hlook0 : fs0.lookup [nm] = some d := by
      unfold FS.lookup
      rw [hfiles0]
      exact hsrc
    have hdirT : fs0.isDir [t] = true := by
      rw [hfs0]
      by_cases hex : fs.exists_ [t] = true
      · rw [if_neg (by simp [hex])]
        unfold FS.exists_ at hex
        rw [Bool.or_eq_true] at hex
        rcases hex with hex | hex
        · rw [hnoblock] at hex
          cases hex
        · exact hex
      · rw [if_pos (by simp [hex, hreal])]
        unfold FS.isDir
        rw [Bool.or_eq_true]
        refine Or.inr ?_
        rw [List.contains_iff_exists_mem_beq]
        exact ⟨[t], List.mem_append.2 (Or.inr (List.mem_singleton.2 rfl)), by simp⟩
    refine ⟨fs0, hfiles0, ?_⟩
    by_cases hcand : fs0.exists_ ([t] ++ [nm]) = true
    · rw [if_pos hcand]
      by_cases hdup : (get_file_hash env.oracle fs0 [nm]).isSome = true ∧
          (get_file_hash env.oracle fs0 ([t] ++ [nm])).isSome = true ∧
          get_file_hash env.oracle fs0 [nm] =
            get_file_hash env.oracle fs0 ([t] ++ [nm])
      · rw [if_pos hdup, if_neg (by rw [hreal]; intro hc; cases hc)]
        refine Or.inl ?_
        show osRemove env.oracle fs0 [nm] = fs0.removeFile [nm]
        unfold osRemove
        rw [if_neg ?_]
        rw [hnv [nm]]
        unfold FS.isFile
        rw [hlook0]
        intro hc
        simp at hc
      · rw [if_neg hdup, if_neg (by rw [hreal]; intro hc; cases hc)]
        obtain ⟨j, hres, hfree, _⟩ :=
          renameLoop_finds_least fs0 [t] (pyStem nm) (pySuffix nm)
            (loopFuel fs0) 1
            (exists_free_candidate fs0 [t] (pyStem nm) (pySuffix nm) 1)
        rw [hres]
        have hfree' : fs0.exists_
            ([t] ++ [candName (pyStem nm) (pySuffix nm) (1 + j)]) = false := hfree
        have hmv : osMove env.oracle fs0 [nm]
            ([t] ++ [candName (pyStem nm) (pySuffix nm) (1 + j)]) =
            some ((fs0.removeFile [nm]).addFile
              ([t] ++ [candName (pyStem nm) (pySuffix nm) (1 + j)]) d) := by
          unfold osMove
          rw [if_neg (by rw [hnv [nm]]; intro hc; cases hc), hlook0]
          have hp : parentOf ([t] ++ [candName (pyStem nm) (pySuffix nm) (1 + j)]) =
              ([t] : Path) := List.dropLast_concat
          rw [hp, hdirT]
          unfold FS.exists_ at hfree'
          rw [Bool.or_eq_false_iff] at hfree'
          rw [hfree'.2]
          simp
        rw [hmv]
        exact Or.inr ⟨candName (pyStem nm) (pySuffix nm) (1 + j), d, rfl⟩
    · rw [if_neg hcand, if_neg (by rw [hreal]; intro hc; cases hc)]
      have hmv : osMove env.oracle fs0 [nm] ([t] ++ [nm]) =
          some ((fs0.removeFile [nm]).addFile ([t] ++ [nm]) d) := by
        unfold osMove
        rw [if_neg (by rw [hnv [nm]]; intro hc; cases hc), hlook0]
        have hp : parentOf ([t] ++ [nm]) = ([t] : Path) := List.dropLast_concat
        rw [hp, hdirT]
        have : fs0.exists_ ([t] ++ [nm]) = false := by
          cases hc : fs0.exists_ ([t] ++ [nm]) with
          | false => rfl
          | true => exact absurd hc hcand
        unfold FS.exists_ at this
        rw [Bool.or_eq_false_iff] at this
        rw [this.2]
        simp
      rw [hmv]
      exact Or.inr ⟨nm, d, rfl⟩
  obtain ⟨fs0, hfiles0, hcase⟩ := hshape
  rcases hcase with hc | ⟨x, d', hc⟩
  · rw [hc]
    refine ⟨?_, ?_, ?_, ?_⟩
    · intro e he
      have h1 := List.mem_filter.1 he
      have h2 := h1.2
      simp only [decide_not, Bool.not_eq_eq_eq_not, Bool.not_true,
        decide_eq_false_iff_not] at h2
      exact Or.inl ⟨hfiles0 ▸ h1.1, h2⟩
    · exact not_mem_keys_removeFile fs0 [nm]
    · intro e he hne _
      exact List.mem_filter.2 ⟨hfiles0 ▸ he, by simpa using hne⟩
    · intro hnd
      exact nodup_removeFile fs0 [nm] (hfiles0 ▸ hnd)
  · rw [hc]
    have hxlen : (([t] ++ [x] : Path)).length = 2 := by simp
    refine ⟨?_, ?_, ?_, ?_⟩
    · intro e he
      simp only [FS.addFile, FS.removeFile] at he
      rcases List.mem_append.1 he with he | he
      · have h1 := List.mem_filter.1 he
        have h2 := List.mem_filter.1 h1.1
        have h3 := h2.2
        simp only [decide_not, Bool.not_eq_eq_eq_not, Bool.not_true,
          decide_eq_false_iff_not] at h3
        exact Or.inl ⟨hfiles0 ▸ h2.1, h3⟩
      · rw [List.mem_singleton] at he
        rw [he]
        exact Or.inr hxlen
    · intro hmem
      simp only [FS.addFile, FS.removeFile] at hmem
      rw [List.map_append, List.mem_append] at hmem
      rcases hmem with hmem | hmem
      · rw [List.mem_map] at hmem
        obtain ⟨e, he, hkey⟩ := hmem
        have h1 := List.mem_filter.1 he
        have h3 := (List.mem_filter.1 h1.1).2
        simp only [decide_not, Bool.not_eq_eq_eq_not, Bool.not_true,
          decide_eq_false_iff_not] at h3
        exact h3 hkey
      · simp only [List.map_cons, List.map_nil, List.mem_singleton] at hmem
        have : (([nm] : Path)).length = (([t] ++ [x] : Path)).length := by
          rw [hmem]
        rw [hxlen] at this
        simp at this
    · intro e he hne hlen
      simp only [FS.addFile, FS.removeFile]
      refine List.mem_append.2 (Or.inl ?_)
      refine List.mem_filter.2 ⟨List.mem_filter.2 ⟨hfiles0 ▸ he, by simpa using hne⟩, ?_⟩
      simp only [decide_not, Bool.not_eq_eq_eq_not, Bool.not_true,
        decide_eq_false_iff_not]
      intro hck
      rw [hck] at hlen
      rw [hxlen] at hlen
      cases hlen
    · intro hnd
      have h0 : ((fs0.removeFile [nm]).files.map (fun e => e.1)).Nodup :=
        nodup_removeFile fs0 [nm] (hfiles0 ▸ hnd)
      exact nodup_addFile (fs0.removeFile [nm]) ([t] ++ [x]) d' h0

/-- Evaluation of the scan-loop body once the filters pass and the
classifier has produced a folder name. -/
theorem orgStep_eval (env : Env) (acc : OrgAcc) (e : Path × FileData)
    (t : String)
    (hskipf : skippedName env (nameOf e.1) = false)
    (ht : get_target_folder env acc.fs e.1 = .ok t) :
    orgStep env acc e =
      (if t ≠ "" then
        match safe_move env acc.fs e.1 [t] with
        | (some p, fs') => .ok ⟨acc.count + 1, acc.batch ++ [⟨e.1, p⟩], fs'⟩
        | (none, fs') => .ok ⟨acc.count, acc.batch, fs'⟩
      else .ok acc) := by
  unfold orgStep
  rw [if_neg (by rw [hskipf]; intro hc; cases hc), ht]

/-- Two entries of a duplicate-free file list sharing a key are equal. -/
theorem entry_eq_of_nodup (l : List (Path × FileData))
    (hnd : (l.map (fun e => e.1)).Nodup) (e e' : Path × FileData)
    (he : e ∈ l) (he' : e' ∈ l) (hk : e.1 = e'.1) : e = e' := by
  have h1 := lookupIn_of_mem_nodup l e.1 e.2 hnd (by
    cases e
    exact he)
  have h2 := lookupIn_of_mem_nodup l e'.1 e'.2 hnd (by
    cases e'
    exact he')
  rw [hk] at h1
  rw [h1] at h2
  injection h2 with hv
  exact Prod.ext_iff.2 ⟨hk, hv⟩

/-- Scan invariant of the first `organize()` run: over a listing of readable,
pairwise-distinct root files none of whose target folders is blocked by a
regular file, the scan loop succeeds, preserves key uniqueness, creates files
only at depth 2, and leaves in the root exactly the untouched entries plus
the filtered-out or empty-target ones. -/
theorem orgFold_scan_invariant (env : Env) (st : St)
    (hreal : env.dryRun = false)
    (hnv : ∀ p, env.oracle.vanished p = false)
    (hWfkeys : (st.fs.files.map (fun e => e.1)).Nodup)
    (hnoblock : ∀ e ∈ st.fs.rootFiles,
      skippedName env (nameOf e.1) = false →
      ∀ t, get_target_folder env st.fs e.1 = .ok t → t ≠ "" →
      st.fs.isFile [t] = false) :
    ∀ (L : List (Path × FileData)) (acc : OrgAcc),
      (∀ e ∈ L, e ∈ st.fs.rootFiles) →
      ((L.map (fun e => e.1)).Nodup) →
      (∀ e ∈ L, e ∈ acc.fs.files) →
      ((acc.fs.files.map (fun e => e.1)).Nodup) →
      (∀ e ∈ acc.fs.files, e ∈ st.fs.files ∨ e.1.length = 2) →
      ∃ acc' : OrgAcc,
        L.foldlM (orgStep env) acc = .ok acc' ∧
        ((acc'.fs.files.map (fun e => e.1)).Nodup) ∧
        (∀ e ∈ acc'.fs.files, e ∈ st.fs.files ∨ e.1.length = 2) ∧
        (∀ e ∈ acc'.fs.files, e.1.length = 1 →
          (e ∈ acc.fs.files ∧ e.1 ∉ L.map (fun x => x.1)) ∨
          (e ∈ st.fs.rootFiles ∧
            (skippedName env (nameOf e.1) = true ∨
             get_target_folder env st.fs e.1 = .ok ""))) := by
  intro L
  induction L with
  | nil =>
    intro acc _ _ _ hJ1 hJ2
    exact ⟨acc, rfl, hJ1, hJ2,
      fun e he hlen => Or.inl ⟨he, by simp⟩⟩
  | cons e L' ih =>
    intro acc hLsub hLnodup hLacc hJ1 hJ2
    have heroot : e ∈ st.fs.rootFiles := hLsub e (List.mem_cons_self e L')
    have hestf : e ∈ st.fs.files := (List.mem_filter.1 heroot).1
    have helen : e.1.length = 1 := by
      have := (List.mem_filter.1 heroot).2
      simpa using this
    have heacc : e ∈ acc.fs.files := hLacc e (List.mem_cons_self e L')
    have hlookacc : acc.fs.lookup e.1 = some e.2 :=
      lookupIn_of_mem_nodup acc.fs.files e.1 e.2 hJ1 (by cases e; exact heacc)
    have hlookst : st.fs.lookup e.1 = some e.2 :=
      lookupIn_of_mem_nodup st.fs.files e.1 e.2 hWfkeys (by cases e; exact hestf)
    rw [List.map_cons, List.nodup_cons] at hLnodup
    have hLsub' : ∀ x ∈ L', x ∈ st.fs.rootFiles :=
      fun x hx => hLsub x (List.mem_cons_of_mem e hx)
    -- a helper used by the no-op cases
    have hnoop : ∀ (hinert : skippedName env (nameOf e.1) = true ∨
        get_target_folder env st.fs e.1 = .ok "")
        (hfold : (e :: L').foldlM (orgStep env) acc =
          L'.foldlM (orgStep env) acc),
        ∃ acc' : OrgAcc,
          (e :: L').foldlM (orgStep env) acc = .ok acc' ∧
          ((acc'.fs.files.map (fun x => x.1)).Nodup) ∧
          (∀ x ∈ acc'.fs.files, x ∈ st.fs.files ∨ x.1.length = 2) ∧
          (∀ x ∈ acc'.fs.files, x.1.length = 1 →
            (x ∈ acc.fs.files ∧ x.1 ∉ (e :: L').map (fun y => y.1)) ∨
            (x ∈ st.fs.rootFiles ∧
              (skippedName env (nameOf x.1) = true ∨
               get_target_folder env st.fs x.1 = .ok ""))) := by
      intro hinert hfold
      obtain ⟨acc', hok, hn1, hn2, hlast⟩ := ih acc hLsub' hLnodup.2
        (fun x hx => hLacc x (List.mem_cons_of_mem e hx)) hJ1 hJ2
      refine ⟨acc', hfold.trans hok, hn1, hn2, ?_⟩
      intro x hx hxlen
      rcases hlast x hx hxlen with ⟨hxmem, hxnot⟩ | hinert'
      · by_cases hxe : x.1 = e.1
        · have hxeq : x = e := entry_eq_of_nodup acc.fs.files hJ1 x e hxmem heacc hxe
          subst hxeq
          exact Or.inr ⟨heroot, hinert⟩
        · refine Or.inl ⟨hxmem, ?_⟩
          rw [List.map_cons]
          intro hc
          rcases List.mem_cons.1 hc with hc | hc
          · exact hxe hc
          · exact hxnot hc
      · exact Or.inr hinert'
    by_cases hskip : skippedName env (nameOf e.1) = true
    · exact hnoop (Or.inl hskip)
        (by rw [List.foldlM_cons, orgStep_skipped env acc e hskip]; rfl)
    · have hskipf : skippedName env (nameOf e.1) = false := by
        cases hc : skippedName env (nameOf e.1) with
        | false => rfl
        | true => exact absurd hc hskip
      obtain ⟨t, htacc, htst⟩ :=
        get_target_folder_agree env acc.fs st.fs e.1 e.2 (hnv e.1) hlookacc
          hlookst
      by_cases ht0 : t = ""
      · subst ht0
        refine hnoop (Or.inr htst) ?_
        have hstep : orgStep env acc e = .ok acc := by
          rw [orgStep_eval env acc e "" hskipf htacc]
          simp
        rw [List.foldlM_cons, hstep]
        rfl
      · -- the file is eligible: it leaves the root
        obtain ⟨nm, henm⟩ : ∃ nm, e.1 = [nm] := by
          cases h1 : e.1 with
          | nil =>
            rw [h1] at helen
            cases helen
          | cons a l =>
            rw [h1] at helen
            simp only [List.length_cons] at helen
            have : l = [] := List.length_eq_zero.1 (by omega)
            exact ⟨a, by rw [this]⟩
        have hblockst : st.fs.isFile [t] = false :=
          hnoblock e heroot hskipf t htst ht0
        have hblockacc : acc.fs.isFile [t] = false := by
          cases hc : acc.fs.isFile [t] with
          | false => rfl
          | true =>
            unfold FS.isFile at hc
            obtain ⟨dd, hdd⟩ := Option.isSome_iff_exists.1 hc
            have hmemt := lookupIn_mem acc.fs.files [t] dd hdd
            rcases hJ2 ([t], dd) hmemt with hin | hlen2
            · unfold FS.isFile FS.lookup at hblockst
              rw [lookupIn_of_mem_nodup st.fs.files [t] dd hWfkeys hin]
                at hblockst
              cases hblockst
            · simp at hlen2
        have hsrcacc : acc.fs.lookup [nm] = some e.2 := henm ▸ hlookacc
        obtain ⟨P1, P2, P3, P4⟩ := safe_move_scan_effect env acc.fs nm t e.2
          hreal hnv hsrcacc hblockacc
        obtain ⟨acc₂, hstep, hacc₂fs⟩ :
            ∃ acc₂ : OrgAcc, orgStep env acc e = .ok acc₂ ∧
              acc₂.fs = (safe_move env acc.fs e.1 [t]).2 := by
          rw [orgStep_eval env acc e t hskipf htacc, if_pos ht0]
          cases hres : safe_move env acc.fs e.1 [t] with
          | mk p? fs' =>
            cases p? with
            | some p =>
              exact ⟨⟨acc.count + 1, acc.batch ++ [⟨e.1, p⟩], fs'⟩, rfl, rfl⟩
            | none =>
              exact ⟨⟨acc.count, acc.batch, fs'⟩, rfl, rfl⟩
        rw [henm] at hacc₂fs
        rw [← hacc₂fs] at P1 P2 P3 P4
        have hS1 : ∀ x ∈ L', x ∈ acc₂.fs.files := by
          intro x hx
          have hxacc : x ∈ acc.fs.files := hLacc x (List.mem_cons_of_mem e hx)
          have hxlen1 : x.1.length = 1 := by
            have := (List.mem_filter.1 (hLsub' x hx)).2
            simpa using this
          have hxne : x.1 ≠ [nm] := by
            rw [← henm]
            intro hc
            exact hLnodup.1 (hc ▸ List.mem_map_of_mem (fun y => y.1) hx)
          exact P3 x hxacc hxne hxlen1
        have hS2 : ∀ x ∈ acc₂.fs.files, x ∈ st.fs.files ∨ x.1.length = 2 := by
          intro x hx
          rcases P1 x hx with ⟨hxacc, _⟩ | hxlen2
          · exact hJ2 x hxacc
          · exact Or.inr hxlen2
        obtain ⟨acc', hok, hn1, hn2, hlast⟩ := ih acc₂ hLsub' hLnodup.2 hS1
          (P4 hJ1) hS2
        refine ⟨acc', ?_, hn1, hn2, ?_⟩
        · rw [List.foldlM_cons, hstep]
          exact hok
        · intro x hx hxlen
          rcases hlast x hx hxlen with ⟨hxmem, hxnot⟩ | hinert'
          · rcases P1 x hxmem with ⟨hxacc, hxne⟩ | hxlen2
            · refine Or.inl ⟨hxacc, ?_⟩
              rw [List.map_cons]
              intro hc
              rcases List.mem_cons.1 hc with hc | hc
              · exact hxne (hc.trans henm)
              · exact hxnot hc
            · rw [hxlen] at hxlen2
              cases hxlen2
          · exact Or.inr hinert'

/-- A scan pass over entries that are all filtered out or classified to the
empty folder name leaves the accumulator unchanged. -/
theorem orgFold_inert (env : Env) (L : List (Path × FileData)) (acc : OrgAcc)
    (h : ∀ e ∈ L, skippedName env (nameOf e.1) = true ∨
      get_target_folder env acc.fs e.1 = .ok "") :
    L.foldlM (orgStep env) acc = .ok acc := by
  induction L with
  | nil => rfl
  | cons e L' ih =>
    have hstep : orgStep env acc e = .ok acc := by
      rcases h e (List.mem_cons_self e L') with hs | ht
      · exact orgStep_skipped env acc e hs
      · by_cases hs : skippedName env (nameOf e.1) = true
        · exact orgStep_skipped env acc e hs
        · have hsf : skippedName env (nameOf e.1) = false := by
            cases hc : skippedName env (nameOf e.1) with
            | false => rfl
            | true => exact absurd hc hs
          rw [orgStep_eval env acc e "" hsf ht]
          simp
    rw [List.foldlM_cons, hstep]
    exact ih (fun x hx => h x (List.mem_cons_of_mem e hx))

/-- C9 (corrected): under the stated side conditions — a real run, no listed
file vanishing mid-scan, duplicate-free file keys, and no eligible root
file's destination folder name being occupied by a regular file — a second
`organize()` run immediately after a completed first one performs zero moves,
returns 0, and changes neither the files nor the history. -/
theorem organize_idempotent_amended (env : Env) (st : St) (n : Nat) (st' : St)
    (hreal : env.dryRun = false)
    (hnv : ∀ p, env.oracle.vanished p = false)
    (hWfkeys : (st.fs.files.map (fun e => e.1)).Nodup)
    (hnoblock : ∀ e ∈ st.fs.rootFiles,
      skippedName env (nameOf e.1) = false →
      ∀ t, get_target_folder env st.fs e.1 = .ok t → t ≠ "" →
      st.fs.isFile [t] = false)
    (h1 : organize env st = .ok (n, st')) :
    ∃ st'' : St, organize env st' = .ok (0, st'') ∧
      st''.fs.files = st'.fs.files ∧ st''.hist = st'.hist := by
  have hdr : ¬ env.dryRun = true := by
    rw [hreal]
    intro hc
    cases hc
  unfold organize at h1
  by_cases hroot : st.fs.rootNonempty = true
  · rw [if_neg (not_not_intro hroot)] at h1
    have hmaprt : (st.fs.rootFiles.map (fun e => e.1)).Nodup := by
      have hsub : st.fs.rootFiles.Sublist st.fs.files :=
        List.filter_sublist st.fs.files
      exact hWfkeys.sublist (hsub.map (fun e => e.1))
    obtain ⟨acc', hfold, hn1, hn2, hlast⟩ :=
      orgFold_scan_invariant env st hreal hnv hWfkeys hnoblock
        st.fs.rootFiles ⟨0, [], st.fs⟩
        (fun e he => he) hmaprt
        (fun e he => (List.mem_filter.1 he).1)
        hWfkeys
        (fun e he => Or.inl he)
    rw [hfold] at h1
    have h1' : Except.ok (ε := Unit)
        (acc'.count,
         (⟨if ¬ env.dryRun = true then cleanup_empty_folders acc'.fs
           else acc'.fs,
           if acc'.count > 0 ∧ ¬ env.dryRun = true then
             save_history st.hist env acc'.batch else st.hist⟩ : St)) =
        .ok (n, st') := h1
    injection h1' with h2
    have hstv : (⟨if ¬ env.dryRun = true then cleanup_empty_folders acc'.fs
        else acc'.fs,
        if acc'.count > 0 ∧ ¬ env.dryRun = true then
          save_history st.hist env acc'.batch else st.hist⟩ : St) = st' :=
      congrArg Prod.snd h2
    rw [if_pos hdr] at hstv
    have hstfs : st'.fs = cleanup_empty_folders acc'.fs := by
      rw [← hstv]
    have hfiles' : st'.fs.files = acc'.fs.files := by
      rw [hstfs, cleanup_files]
    have hinert2 : ∀ e ∈ st'.fs.rootFiles,
        skippedName env (nameOf e.1) = true ∨
        get_target_folder env st'.fs e.1 = .ok "" := by
      intro e he
      have hlen : e.1.length = 1 := by
        have := (List.mem_filter.1 he).2
        simpa using this
      have hemem' : e ∈ st'.fs.files := (List.mem_filter.1 he).1
      have hemem : e ∈ acc'.fs.files := hfiles' ▸ hemem'
      rcases hlast e hemem hlen with ⟨hest, hnotin⟩ | ⟨heroot, hin⟩
      · exact absurd (List.mem_map_of_mem (fun x => x.1)
          (List.mem_filter.2 ⟨hest, by simpa using hlen⟩)) hnotin
      · rcases hin with hs | ht
        · exact Or.inl hs
        · refine Or.inr ?_
          have hestf : e ∈ st.fs.files := (List.mem_filter.1 heroot).1
          have hl1 : st.fs.lookup e.1 = some e.2 :=
            lookupIn_of_mem_nodup st.fs.files e.1 e.2 hWfkeys
              (by cases e; exact hestf)
          have hl2 : st'.fs.lookup e.1 = some e.2 := by
            unfold FS.lookup
            rw [hfiles']
            exact lookupIn_of_mem_nodup acc'.fs.files e.1 e.2 hn1
              (by cases e; exact hemem)
          obtain ⟨t, ht1, ht2⟩ :=
            get_target_folder_agree env st.fs st'.fs e.1 e.2 (hnv e.1) hl1 hl2
          have htt : (Except.ok t : Except Unit String) = .ok "" :=
            ht1.symm.trans ht
          injection htt with hteq
          rw [hteq] at ht2
          exact ht2
    by_cases hroot2 : st'.fs.rootNonempty = true
    · have hfold2 : st'.fs.rootFiles.foldlM (orgStep env) ⟨0, [], st'.fs⟩ =
          .ok ⟨0, [], st'.fs⟩ :=
        orgFold_inert env st'.fs.rootFiles ⟨0, [], st'.fs⟩ hinert2
      refine ⟨⟨cleanup_empty_folders st'.fs, st'.hist⟩, ?_, ?_, rfl⟩
      · simp [organize, hroot2, hfold2, hreal]
      · exact cleanup_files st'.fs
    · refine ⟨st', ?_, rfl, rfl⟩
      unfold organize
      rw [if_pos hroot2]
  · rw [if_pos hroot] at h1
    injection h1 with h2
    have hst : st = st' := congrArg Prod.snd h2
    cases hst
    refine ⟨st, ?_, rfl, rfl⟩
    unfold organize
    rw [if_pos hroot]

/-- Real-mode extension-strategy environment used by the concrete
idempotence run. -/
def idemEnv : Env :=
  { mappings := [("Documents", ["txt"])], ignore := [], strategy := "extension",
    dryRun := false, formatDate := fun _ => "2024-01", now := 1,
    oracle := .benign }

/-- Directory holding one fresh `a.txt`. -/
def idemSt : St :=
  { fs := { files := [(["a.txt"], ⟨"a", 0⟩)], dirs := [] }, hist := .missing }

/-- The state produced by the first `organize()` run on `idemSt`. -/
def idemSt1 : St :=
  { fs := { files := [(["Documents", "a.txt"], ⟨"a", 0⟩)],
            dirs := [["Documents"]] },
    hist := .valid [⟨1, [⟨["a.txt"], ["Documents", "a.txt"]⟩]⟩] }

/-- Witness for `organize_idempotent_amended` at a concrete input. -/
theorem organize_idempotent_amended_witness :
    ∃ st'' : St, organize idemEnv idemSt1 = .ok (0, st'') ∧
      st''.fs.files = idemSt1.fs.files ∧ st''.hist = idemSt1.hist :=
  organize_idempotent_amended idemEnv idemSt 1 idemSt1
    rfl (fun _ => rfl) (by decide)
    (by
      intro e he hskip t ht ht0
      have hsing : idemSt.fs.rootFiles =
          [(["a.txt"], (⟨"a", 0⟩ : FileData))] := rfl
      rw [hsing] at he
      have he' : e = (["a.txt"], (⟨"a", 0⟩ : FileData)) :=
        List.mem_singleton.1 he
      subst he'
      have hknown : get_target_folder idemEnv idemSt.fs ["a.txt"] =
          .ok "Documents" := rfl
      have h2 : (Except.ok "Documents" : Except Unit String) = .ok t :=
        hknown.symm.trans ht
      injection h2 with h3
      rw [← h3]
      decide)
    (by decide)
